import Mathlib

/-!
Verification development for the zedit editor core: a shallow embedding of the
position/interval model, the tag container, the word-wrap engine, the
delete pipeline at row level, and the load header checks, with theorems
settling the specification claims about them.

Conventions of the embedding:
* Go `int` is modelled as `Int`; Go `rune` as `Char`.
* Go structs become structures with the same field names where Lean allows it.
* Functions that can panic in Go (invalid slice bounds) return `Option`,
  with `none` standing for the panic.
-/

namespace Zedit

/-! Positions and intervals, from positions.go. -/

/-- CharPos represents a character position in the grid, as in the source:
line, column, and a flag marking positions inside the line-number gutter. -/
structure CharPos where
  Line : Int
  Column : Int
  IsLineNumber : Bool := false
deriving DecidableEq

/-- CmpPos compares two char positions, returning -1, 0 or 1, translated
branch by branch from the source. Note that the second argument's
IsLineNumber flag is never consulted. -/
def CmpPos (a b : CharPos) : Int :=
  if a.Line < b.Line then -1
  else if a.IsLineNumber then (if a.Line = b.Line then 0 else 1)
  else if a.Line > b.Line then 1
  else if a.Column < b.Column then -1
  else if a.Column = b.Column then 0
  else 1

/-- MaxPos returns the larger position under CmpPos, as in the source. -/
def MaxPos (a b : CharPos) : CharPos :=
  if CmpPos a b = -1 then b else a

/-- MinPos returns the smaller position under CmpPos, as in the source. -/
def MinPos (a b : CharPos) : CharPos :=
  if CmpPos a b ≤ 0 then a else b

/-- CharInterval is an inclusive interval of character positions. -/
structure CharInterval where
  Start : CharPos
  End : CharPos
deriving DecidableEq

/-- Lines returns the number of lines the interval spans, from the source. -/
def CharInterval.Lines (c : CharInterval) : Int :=
  c.End.Line - c.Start.Line + 1

/-- MaybeSwap swaps start and end when the end is before the start. -/
def CharInterval.MaybeSwap (c : CharInterval) : CharInterval :=
  if CmpPos c.Start c.End > 0 then ⟨c.End, c.Start⟩ else c

/-- Sanitize clamps an interval into the document, translated from the
source: swap if needed, clamp the start componentwise to at least zero
(rebuilding the position, which clears the line-number flag), then clamp
the end to lastPos when it lies beyond it. -/
def CharInterval.Sanitize (c : CharInterval) (lastPos : CharPos) : CharInterval :=
  let r := c.MaybeSwap
  let r : CharInterval :=
    { r with Start := { Line := max r.Start.Line 0, Column := max r.Start.Column 0,
                        IsLineNumber := false } }
  if CmpPos r.End lastPos > 0 then { r with End := lastPos } else r

/-! Claim C6: the ordering of CmpPos. -/

/-- Purely lexicographic comparison on (line, column), written from the
specification's words, to compare against the implementation. -/
def lexCmpPos (a b : CharPos) : Int :=
  if a.Line < b.Line then -1
  else if b.Line < a.Line then 1
  else if a.Column < b.Column then -1
  else if b.Column < a.Column then 1
  else 0

/-! Claim C1: the deletion adjustment of tag intervals,
from Editor.maybeAdjustTagIntervalForDelete. -/

/-- Outcome of the deletion adjustment for one tag: the interval is left
unchanged (case 4), the tag is deleted outright (case 3), the tag is
re-registered under a new interval (cases 1, 2, 5, 6, 7), or no branch
matched and the unhandled-adjustment message is logged. -/
inductive DeleteAdjust where
  | unchanged
  | removed
  | adjusted (newInterval : CharInterval)
  | unhandled
deriving DecidableEq

/-- Translation of Editor.maybeAdjustTagIntervalForDelete. The editor
state enters only through LastColumn(fromTo.Start.Line), passed here as
lastColStartLine; the Upsert and Delete calls on the tag store become the
returned outcome. -/
def maybeAdjustTagIntervalForDelete (lastColStartLine : Int)
    (interval fromTo : CharInterval) : DeleteAdjust :=
  -- Case 4: fromTo is strictly after interval, do nothing.
  if CmpPos fromTo.Start interval.End > 0 then .unchanged
  else
    let lineDelta := -(fromTo.End.Line - fromTo.Start.Line)
    let columnDelta0 := fromTo.End.Column
    let columnDelta1 :=
      if fromTo.Start.Line = fromTo.End.Line then columnDelta0 - fromTo.Start.Column + 1
      else columnDelta0
    let columnDelta := -columnDelta1
    if CmpPos fromTo.End interval.Start < 0 then
      -- Cases 5 and 6.
      if fromTo.End.Line < interval.Start.Line then
        -- Case 6: shift the interval by lineDelta.
        .adjusted ⟨⟨interval.Start.Line + lineDelta, interval.Start.Column, false⟩,
                   ⟨interval.End.Line + lineDelta, interval.End.Column, false⟩⟩
      else
        -- Case 5: shift by lineDelta and also shift the start column.
        let diff1 := interval.Start.Column - fromTo.End.Column
        if interval.Start.Line = interval.End.Line then
          .adjusted ⟨⟨fromTo.Start.Line, fromTo.Start.Column + diff1 - 1, false⟩,
                     ⟨fromTo.Start.Line,
                      fromTo.Start.Column + (interval.End.Column - interval.Start.Column) + diff1 - 1,
                      false⟩⟩
        else
          .adjusted ⟨⟨fromTo.Start.Line, fromTo.Start.Column + diff1 - 1, false⟩,
                     ⟨fromTo.Start.Line + (interval.End.Line - interval.Start.Line),
                      interval.End.Column, false⟩⟩
    else if CmpPos fromTo.Start interval.Start ≤ 0 ∧ CmpPos fromTo.End interval.End ≥ 0 then
      -- Case 3: the entire interval is deleted.
      .removed
    else if CmpPos fromTo.Start interval.Start ≥ 0 ∧ CmpPos fromTo.End interval.End ≤ 0 then
      -- Case 1: the deletion interval is within the interval.
      let columnDelta' := if fromTo.End.Line ≠ interval.End.Line then 0 else columnDelta
      let lfRemoved : Int :=
        if fromTo.Start.Line = fromTo.End.Line ∧ fromTo.Start.Column = lastColStartLine
        then -1 else 0
      .adjusted ⟨⟨interval.Start.Line, interval.Start.Column, false⟩,
                 ⟨interval.End.Line - fromTo.Lines + 1 + lfRemoved,
                  interval.End.Column + columnDelta', false⟩⟩
    else if CmpPos fromTo.Start interval.Start < 0 then
      -- Case 2: the new interval starts at fromTo.Start.
      let columnDelta' := if fromTo.End.Line ≠ interval.End.Line then 0 else columnDelta
      .adjusted ⟨fromTo.Start,
                 ⟨interval.End.Line + lineDelta, interval.End.Column + columnDelta', false⟩⟩
    else if CmpPos fromTo.Start interval.Start ≥ 0 ∧ CmpPos fromTo.End interval.End > 0 then
      -- Case 7: the interval now ends at fromTo.Start.
      .adjusted ⟨interval.Start, fromTo.Start⟩
    else
      -- Unreachable log branch.
      .unhandled

/-! Claim C4: the tag shift performed by Insert before reflow,
from the tag-adjustment loop of Editor.Insert. -/

/-- Translation of the per-tag body of the tag-adjustment loop in
Editor.Insert: when the tag interval starts on the insertion line strictly
after the insertion column, the start column is shifted right by the
inserted length, and the end column as well when the end lies on the same
line; the Upsert call becomes the returned interval. -/
def insertAdjustTag (pos : CharPos) (lenInsert : Int) (interval : CharInterval) : CharInterval :=
  if interval.Start.Line = pos.Line then
    if pos.Column < interval.Start.Column then
      let endPos : CharPos :=
        if interval.End.Line = pos.Line then
          ⟨interval.End.Line, interval.End.Column + lenInsert, false⟩
        else interval.End
      ⟨⟨interval.Start.Line, interval.Start.Column + lenInsert, false⟩, endPos⟩
    else interval
  else interval

/-! Claims C7 and C8: loading a stream, from Editor.Load, Editor.loadHeader
and Editor.loadText. -/

/-- Magic cookie, as in the source. -/
def MAGIC : Nat := 86637303

/-- Version of the reader, as in the source. -/
def VERSION : Nat := 100

/-- Header of a persisted stream, from the header struct. -/
structure GoHeader where
  Magic : Nat
  Version : Nat
  MinVersion : Nat
  HasCustomSave : Bool
deriving DecidableEq

/-- Distinct error values that loadHeader can surface. -/
inductive LoadError where
  | invalidStream
  | versionTooLow
deriving DecidableEq

/-- Size-guard configuration fields of the editor Config. They are
declared in the source with the comment that they are only used during
Load, but no code reads them. -/
structure SizeGuardConfig where
  MaxLines : Int
  MaxColumns : Int
  MaxTags : Int
deriving DecidableEq

/-- Translation of Editor.loadHeader on an already-decoded header: reject
a wrong magic constant with ErrInvalidStream, then a minimum version above
the reader's VERSION with ErrVersionTooLow. -/
def loadHeader (h : GoHeader) : Except LoadError GoHeader :=
  if h.Magic ≠ MAGIC then .error .invalidStream
  else if VERSION < h.MinVersion then .error .versionTooLow
  else .ok h

/-- Translation of Editor.Load at the row level, on a stream whose header
and text already decoded to h and streamRows: the header is checked first
and a header error returns before the row array is touched; after a valid
header the rows are cleared and replaced by the decoded rows. The
configured size guards cfg are never consulted, mirroring the source,
where Load and loadText contain no check of MaxLines, MaxColumns or
MaxTags. -/
def EditorLoad (cfg : SizeGuardConfig) (rows : List (List Char)) (h : GoHeader)
    (streamRows : List (List Char)) : List (List Char) × Option LoadError :=
  match loadHeader h with
  | .error e => (rows, some e)
  | .ok _ =>
    let _ := cfg
    (streamRows, none)

/-! Word-wrap engine, from Editor.WordWrapRows and its helpers. -/

/-- Model of the Latin-1 fragment of the space classification used by the
source through unicode.IsSpace; space runes outside Latin-1 (category Z)
do not occur in the claims and are omitted. -/
def goIsSpace (c : Char) : Bool :=
  c == ' ' || c == '\t' || c == '\n' || c == (Char.ofNat 11) || c == (Char.ofNat 12) ||
  c == '\r' || c == (Char.ofNat 0x85) || c == (Char.ofNat 0xA0)

structure XCell where
  Rune : Char
  IsCursorCell : Bool
deriving DecidableEq

def flattenRow (hardLF softLF : Char) (cursorRow cursorCol : Int) (i rowLen : Int) :
    Int → List Char → Bool → List XCell × Bool
  | _, [], ctn => ([], ctn)
  | j, c :: rest, ctn =>
    let atCursor : Bool := i == cursorRow && j == cursorCol
    let isCursor : Bool := atCursor || ctn
    if (c == hardLF && j == rowLen - 1) || c == softLF then
      flattenRow hardLF softLF cursorRow cursorCol i rowLen (j + 1) rest atCursor
    else
      let r := flattenRow hardLF softLF cursorRow cursorCol i rowLen (j + 1) rest false
      (⟨c, isCursor⟩ :: r.1, r.2)

def flattenParaRows (hardLF softLF : Char) (cursorRow cursorCol : Int) :
    Int → List (List Char) → Bool → List XCell × Bool
  | _, [], ctn => ([], ctn)
  | i, row :: rest, ctn =>
    let r1 := flattenRow hardLF softLF cursorRow cursorCol i (row.length : Int) 0 row ctn
    let r2 := flattenParaRows hardLF softLF cursorRow cursorCol (i + 1) rest r1.2
    (r1.1 ++ r2.1, r2.2)

def xCellsCursorCol (cells : List XCell) : Int :=
  cells.enum.foldl (fun acc p => if p.2.IsCursorCell then (p.1 : Int) else acc) (-1)

def xCellsToRow (cells : List XCell) : List Char × Int :=
  (cells.map XCell.Rune, xCellsCursorCol cells)

def cellsContainCursor (cells : List XCell) : Bool :=
  cells.any XCell.IsCursorCell

structure WrapState where
  result : List (List Char)
  line : List XCell
  lastSpc : Int
  lpos : Int
  lineIdx : Int
  newCol : Int
  newRow : Int
  handled : Bool

/-- Emission of one output row, the part shared by the split and no-split
branches of the packing loop: append the row, record the cursor column
when the row contains the cursor cell, and record the output row index of
the cursor. -/
def wrapEmitRow (s : WrapState) (line2 : List XCell) : WrapState :=
  { s with
    result := s.result ++ [(xCellsToRow line2).1],
    newCol := if (xCellsToRow line2).2 ≥ 0 then (xCellsToRow line2).2 else s.newCol,
    newRow := if cellsContainCursor line2 then s.lineIdx else s.newRow }

/-- New value of the last-space marker after reading a cell: the current
position when the cell is a space, unchanged otherwise. -/
def nextLastSpc (c : XCell) (lpos lastSpc : Int) : Int :=
  if goIsSpace c.Rune then lpos else lastSpc

/-- Candidate cut position: the last space when one was seen, otherwise
the current position. -/
def cutPosOf (lpos lastSpc : Int) : Int :=
  if lastSpc > 0 then min lpos lastSpc else lpos

/-- Split branch of the packing loop: emit the cells before the cut as a
row and carry the cells after the cut over as the start of the next line,
placing the cursor column at its end when the overflow holds the cursor. -/
def wrapStepSplit (s : WrapState) (line : List XCell) (cutPos : Int) : WrapState :=
  { wrapEmitRow s (line.take cutPos.toNat) with
    line := line.drop cutPos.toNat
    lastSpc := 0
    lpos := ((line.drop cutPos.toNat).length : Int)
    lineIdx := s.lineIdx + 1
    newCol :=
      if cellsContainCursor (line.drop cutPos.toNat) then
        ((line.drop cutPos.toNat).length : Int) - 1
      else (wrapEmitRow s (line.take cutPos.toNat)).newCol
    handled := false }

/-- No-split branch of the packing loop: emit the whole line as a row and
start the next line empty. -/
def wrapStepFlush (s : WrapState) (line : List XCell) : WrapState :=
  { wrapEmitRow s line with
    line := []
    lastSpc := 0
    lpos := 0
    lineIdx := s.lineIdx + 1
    handled := true }

/-- One iteration of the packing loop of WordWrapRows, translated from the
source. The cell is appended to the current line; when the line reaches
the wrap column it is emitted, split at the last space when that cut is at
least half the wrap width from the row start and strictly inside the line.
The source branches at runtime on the overflow being nonempty; splitting
guarantees a nonempty overflow (the cut is strictly inside the line) and
not splitting leaves it empty, so that check coincides with the split
condition. -/
def wrapStep (wrapCol : Int) (s : WrapState) (c : XCell) : WrapState :=
  let lpos := s.lpos + 1
  let line := s.line ++ [c]
  let lastSpc := nextLastSpc c lpos s.lastSpc
  if lpos ≥ wrapCol then
    if cutPosOf lpos lastSpc ≥ wrapCol.tdiv 2 ∧ cutPosOf lpos lastSpc < (line.length : Int) then
      wrapStepSplit s line (cutPosOf lpos lastSpc)
    else
      wrapStepFlush s line
  else
    { s with line := line, lpos := lpos, lastSpc := lastSpc, handled := false }

structure WrapResult where
  rows : List (List Char)
  newRow : Int
  newCol : Int
deriving DecidableEq

/-- WordWrapRows, translated from the source at row level: flatten the
paragraph into cells, pack them with the wrap loop, emit the unfinished
line when the loop did not just emit (the final not-handled block of the
source is exactly the shared row emission), append one delimiter per row
(soft delimiter when soft-wrap is on, hard otherwise), overwrite the very
last row's delimiter with the hard delimiter, and place the cursor on the
paragraph end when it sat on the deleted final line feed. The tag
relocation done by adjustTags mutates only the tag store and does not
alter the returned rows, so it does not appear at this level. -/
def wordWrapRows (wrapCol : Int) (softWrap : Bool) (hardLF softLF : Char)
    (cursorRow cursorCol : Int) (inRows : List (List Char)) : WrapResult :=
  let fp := flattenParaRows hardLF softLF cursorRow cursorCol 0 inRows false
  let s0 : WrapState :=
    { result := [], line := [], lastSpc := 0, lpos := 0, lineIdx := 0,
      newCol := cursorCol, newRow := 0, handled := false }
  let s1 := fp.1.foldl (wrapStep wrapCol) s0
  let s2 := if s1.handled then s1 else wrapEmitRow s1 s1.line
  let res1 := s2.result.map (fun r => r ++ [if softWrap then softLF else hardLF])
  let k := res1.length - 1
  let lastRow := res1.getD k []
  ⟨res1.set k (lastRow.set (lastRow.length - 1) hardLF),
   if fp.2 then (k : Int) else s2.newRow,
   if fp.2 then (lastRow.length : Int) - 1 else s2.newCol⟩

/-! Flattening preserves absence of delimiters. -/

/-- RowWF captures a well-formed editor row: some delimiter-free body
followed by exactly one trailing delimiter rune. -/
def RowWF (hardLF softLF : Char) (r : List Char) : Prop :=
  ∃ body dd, r = body ++ [dd] ∧ (dd = hardLF ∨ dd = softLF) ∧
    ∀ ch ∈ body, ch ≠ hardLF ∧ ch ≠ softLF

/-! Delete at row level, from Editor.Delete and its helpers. -/

/-- Wrap-related configuration of the editor used by Delete. -/
structure WrapCfg where
  HardLF : Char
  SoftLF : Char
  SoftWrap : Bool
  Columns : Int
deriving DecidableEq

/-- LastColumn of the given line: the length of the row minus one, from
the source. Looking up a line outside the buffer panics in the source;
the claims only apply it to valid lines. -/
def lastColumnOf (rows : List (List Char)) (n : Int) : Int :=
  ((rows.getD n.toNat []).length : Int) - 1

/-- LastPos of the buffer: last line, last column of the last row. -/
def lastPosOf (rows : List (List Char)) : CharPos :=
  ⟨(rows.length : Int) - 1, ((rows.getD (rows.length - 1) []).length : Int) - 1, false⟩

/-- PrevPos, from the source: home stays at the origin with false, a
column-zero position moves to the end of the previous line, any other
position moves one column left. -/
def prevPosOf (rows : List (List Char)) (pos : CharPos) : CharPos × Bool :=
  if pos.Line ≤ 0 ∧ pos.Column ≤ 0 then (⟨0, 0, false⟩, false)
  else if pos.Column = 0 then
    (⟨pos.Line - 1, ((rows.getD (pos.Line - 1).toNat []).length : Int) - 1, false⟩, true)
  else (⟨pos.Line, pos.Column - 1, false⟩, true)

/-- Go slices.Delete(s, i, j) removes s[i:j]; it panics when the bounds
are invalid, modelled as none. -/
def goSlicesDelete {α : Type} (s : List α) (i j : Int) : Option (List α) :=
  if 0 ≤ i ∧ i ≤ j ∧ j ≤ (s.length : Int) then
    some (s.take i.toNat ++ s.drop j.toNat)
  else none

/-- Row surgery of Editor.Delete on the already-clamped interval ft. The
special case removes the trailing delimiter of the start line and merges
the next line into it; the normal case keeps the text before the start,
appends whatever follows the end on the end line, and removes the rows
strictly between. The row-level slices.Delete of the normal case is the
one deletion that can receive inverted bounds, hence the Option. -/
def deleteSurgery (rows : List (List Char)) (ft : CharInterval) : Option (List (List Char)) :=
  if ft.Start.Line = ft.End.Line ∧ ft.Start.Column = lastColumnOf rows ft.Start.Line then
    let sl := ft.Start.Line.toNat
    let row := rows.getD sl []
    let row1 := row.take ft.Start.Column.toNat ++ row.drop (ft.Start.Column.toNat + 1)
    let rows1 := rows.set sl row1
    if (rows.length : Int) - 1 > ft.Start.Line then
      let rows2 := rows1.set sl (row1 ++ rows1.getD (sl + 1) [])
      goSlicesDelete rows2 ((sl : Int) + 1) ((sl : Int) + 2)
    else some rows1
  else
    let underflow := (rows.getD ft.End.Line.toNat []).drop (ft.End.Column.toNat + 1)
    let row1 := (rows.getD ft.Start.Line.toNat []).take ft.Start.Column.toNat ++ underflow
    let rows1 := rows.set ft.Start.Line.toNat row1
    goSlicesDelete rows1 (ft.Start.Line + 1) (ft.End.Line + 1)

/-- Recursion of FindParagraphStart below the top-level guards: walk
upward until the previous row is empty or ends in the delimiter. -/
def fpsAux (rows : List (List Char)) (lf : Char) : Nat → Nat
  | 0 => 0
  | r + 1 =>
    match (rows.getD r []).getLast? with
    | none => r + 1
    | some c => if c = lf then r + 1 else fpsAux rows lf r

/-- FindParagraphStart, from the source: nonpositive rows map to 0 and
rows beyond the last line restart from the last line, folded here into
the min with the last line. -/
def findParagraphStart (rows : List (List Char)) (lf : Char) (row : Int) : Nat :=
  if row ≤ 0 then 0 else fpsAux rows lf (min row.toNat (rows.length - 1))

/-- Recursion of FindParagraphEnd: walk downward until a row is empty or
ends in the delimiter; the fuel encodes the source's guard that a row at
or beyond the last line is returned as is. -/
def fpeAux (rows : List (List Char)) (lf : Char) : Nat → Nat → Nat
  | row, 0 => row
  | row, fuel + 1 =>
    match (rows.getD row []).getLast? with
    | none => row
    | some c => if c = lf then row else fpeAux rows lf (row + 1) fuel

/-- FindParagraphEnd, from the source, for a row inside the buffer. -/
def findParagraphEnd (rows : List (List Char)) (lf : Char) (row : Nat) : Nat :=
  fpeAux rows lf row (rows.length - 1 - row)

/-- Overwrite of the segment starting at index i by seg, the effect of
the row-copy loop of the source when i + seg.length stays within l. -/
def setSeg {α : Type} (l : List α) (i : Nat) (seg : List α) : List α :=
  l.take i ++ seg ++ l.drop (i + seg.length)

/-- Delete at row level, translated from Editor.Delete: sanitize against
the last buffer position, pull the end back to the previous position when
it equals the last position, perform the row surgery, restore a delimiter
on an emptied start row, reflow the enclosing paragraph through
WordWrapRows and splice the reflowed rows back, adjusting the row count.
Caret and tag updates touch neither the row array nor the reflow result
and are omitted; the caret position only feeds the cursor tracking of
WordWrapRows, whose row output does not depend on it. -/
def deleteClamp (rows : List (List Char)) (fromTo : CharInterval) : CharInterval :=
  let lastPos := lastPosOf rows
  let ft0 := fromTo.Sanitize lastPos
  if CmpPos ft0.End lastPos = 0 then ⟨ft0.Start, (prevPosOf rows lastPos).1⟩ else ft0

def deleteRows (cfg : WrapCfg) (caret : CharPos) (rows : List (List Char))
    (fromTo : CharInterval) : Option (List (List Char)) :=
  let ft := deleteClamp rows fromTo
  match deleteSurgery rows ft with
  | none => none
  | some rows1 =>
    let sl := ft.Start.Line.toNat
    let rows2 :=
      if (rows1.getD sl []).length = 0 then
        rows1.set sl [if cfg.SoftWrap then cfg.SoftLF else cfg.HardLF]
      else rows1
    let paraStart := findParagraphStart rows2 cfg.HardLF ft.Start.Line
    let paraEnd := findParagraphEnd rows2 cfg.HardLF sl
    let para := (rows2.drop paraStart).take (paraEnd + 1 - paraStart)
    let reflowed := (wordWrapRows cfg.Columns cfg.SoftWrap cfg.HardLF cfg.SoftLF
      (caret.Line - (paraStart : Int)) caret.Column para).rows
    let n0 := paraEnd + 1 - paraStart
    let rows3 :=
      if reflowed.length < n0 then
        rows2.take (paraStart + reflowed.length) ++ rows2.drop (paraEnd + 1)
      else if n0 < reflowed.length then
        rows2.take (paraEnd + 1) ++ List.replicate (reflowed.length - n0) [] ++
          rows2.drop (paraEnd + 1)
      else rows2
    some (setSeg rows3 paraStart reflowed)

/-- ValidPosIn states that a position denotes an existing character cell
of the buffer: no gutter flag, line inside the row array, column inside
that row. -/
def ValidPosIn (rows : List (List Char)) (p : CharPos) : Prop :=
  p.IsLineNumber = false ∧ 0 ≤ p.Line ∧ p.Line ≤ (rows.length : Int) - 1 ∧
  0 ≤ p.Column ∧ p.Column ≤ ((rows.getD p.Line.toNat []).length : Int) - 1

instance (rows : List (List Char)) (p : CharPos) : Decidable (ValidPosIn rows p) := by
  unfold ValidPosIn
  infer_instance

/-! Tag container, from tags.go. Tags are identified by their index; the tree
keyed on intervals through the CmpPos comparator becomes a function from
intervals to tag lists, where the multi-value Insert appends to the entry of
the exact key, Upsert replaces it, and Delete clears it. -/

/-- Comparator-level key equality of the interval search tree: both endpoints
compare as 0 under CmpPos, the comparator the tree is built with. -/
def keyEq (i j : CharInterval) : Bool :=
  (CmpPos i.Start j.Start == 0) && (CmpPos i.End j.End == 0)

/-- Interval with both endpoints outside the line-number gutter, the form the
editor hands to the container. -/
def cleanIv (i : CharInterval) : Bool :=
  !i.Start.IsLineNumber && !i.End.IsLineNumber

/-- State of a TagContainer: the tag-to-interval map and the interval search
tree (names and stylers play no role in the map/tree consistency). -/
structure TagContainerM where
  tags : Nat → Option CharInterval
  lookup : CharInterval → List Nat

/-- Operations of the claim: Add with an interval and a tag list, Upsert of a
single tag, Delete of a single tag. -/
inductive TCOp where
  | add (interval : CharInterval) (ts : List Nat)
  | upsert (t : Nat) (interval : CharInterval)
  | del (t : Nat)

/-- NewTagContainer: empty map, empty tree. -/
def emptyTC : TagContainerM :=
  ⟨fun _ => none, fun _ => []⟩

/-- One container operation, translated from TagContainer.Add, .Upsert and
.Delete. Add writes the map entries and appends the tags at the tree key
without touching any old entry of a re-added tag. Delete removes the map
entry, then filters the tag out of the tree entry found under its interval
(replacing the entry when nonempty, removing the key otherwise - both equal
to storing the filtered list). Upsert first performs the same tree filtering
for a registered tag, then writes the map entry and appends the tag at the
key of the new interval. -/
def applyOp (c : TagContainerM) : TCOp → TagContainerM
  | .add i ts =>
    ⟨fun t => if t ∈ ts then some i else c.tags t,
     fun j => if keyEq j i then c.lookup j ++ ts else c.lookup j⟩
  | .del t =>
    match c.tags t with
    | none => c
    | some i =>
      ⟨fun t2 => if t2 = t then none else c.tags t2,
       fun j => if keyEq j i then (c.lookup j).filter (fun t2 => t2 ≠ t)
                else c.lookup j⟩
  | .upsert t i =>
    let c1 : TagContainerM :=
      match c.tags t with
      | none => c
      | some i2 =>
        ⟨c.tags,
         fun j => if keyEq j i2 then (c.lookup j).filter (fun t2 => t2 ≠ t)
                  else c.lookup j⟩
    ⟨fun t2 => if t2 = t then some i else c1.tags t2,
     fun j => if keyEq j i then c1.lookup j ++ [t] else c1.lookup j⟩

/-- Sequence of operations applied in order. -/
def applySeq (c : TagContainerM) (ops : List TCOp) : TagContainerM :=
  ops.foldl applyOp c

/-- Validity of one operation in a given state: intervals handed to the
container are clean, and Add is only used for tags not currently registered. -/
def validOp (c : TagContainerM) : TCOp → Bool
  | .add i ts => cleanIv i && ts.all (fun t => (c.tags t).isNone)
  | .upsert _ i => cleanIv i
  | .del _ => true

/-- Validity of an operation sequence, each operation checked in the state the
previous ones produced. -/
def validOps (c : TagContainerM) : List TCOp → Bool
  | [] => true
  | op :: rest => validOp c op && validOps (applyOp c op) rest

/-- Map/tree consistency: every registered tag is clean and present in the
tree entry of its interval, and every tag in the tree entry of a clean
interval is registered exactly under that interval. -/
def Inv (c : TagContainerM) : Prop :=
  (∀ t i, c.tags t = some i → cleanIv i = true ∧ t ∈ c.lookup i) ∧
  (∀ t i, cleanIv i = true → t ∈ c.lookup i → c.tags t = some i)

/-! Helper characterisations of CmpPos. -/

/-- For a left argument outside the line-number gutter, CmpPos is the
lexicographic comparison of (line, column). -/
theorem cmpPos_of_not_lineNumber (a b : CharPos) (ha : a.IsLineNumber = false) :
    CmpPos a b =
      (if a.Line < b.Line then -1
       else if a.Line > b.Line then 1
       else if a.Column < b.Column then -1
       else if a.Column = b.Column then 0
       else 1) := by
  unfold CmpPos
  rw [ha]
  simp

/-- Version of the lexicographic characterisation with an explicit
constructor on the left, convenient for simp. -/
theorem cmpPos_mk_false (al ac bl bc : Int) (bf : Bool) :
    CmpPos ⟨al, ac, false⟩ ⟨bl, bc, bf⟩ =
      (if al < bl then -1 else if al > bl then 1
       else if ac < bc then -1 else if ac = bc then 0 else 1) :=
  cmpPos_of_not_lineNumber _ _ rfl

/-- Ordering facts for CmpPos on a non-gutter left argument, phrased as
arithmetic on lines and columns. -/
theorem cmpPos_le_zero_iff (a b : CharPos) (ha : a.IsLineNumber = false) :
    CmpPos a b ≤ 0 ↔ (a.Line < b.Line ∨ (a.Line = b.Line ∧ a.Column ≤ b.Column)) := by
  rw [cmpPos_of_not_lineNumber a b ha]
  split_ifs <;> constructor <;> intro h <;> first | exact h.elim | omega

/-- CmpPos is zero on a non-gutter left argument exactly when line and
column agree. -/
theorem cmpPos_eq_zero_iff (a b : CharPos) (ha : a.IsLineNumber = false) :
    CmpPos a b = 0 ↔ (a.Line = b.Line ∧ a.Column = b.Column) := by
  rw [cmpPos_of_not_lineNumber a b ha]
  split_ifs <;> constructor <;> intro h <;> first | exact h.elim | omega

/-- CmpPos is positive on a non-gutter left argument exactly when the left
position is lexicographically after the right one. -/
theorem cmpPos_pos_iff (a b : CharPos) (ha : a.IsLineNumber = false) :
    CmpPos a b > 0 ↔ (b.Line < a.Line ∨ (b.Line = a.Line ∧ b.Column < a.Column)) := by
  rw [cmpPos_of_not_lineNumber a b ha]
  split_ifs <;> constructor <;> intro h <;> first | exact h.elim | omega

/-- Constructor variant of the order characterisation, for simp. -/
theorem cmpPos_mk_le_zero (al ac bl bc : Int) (bf : Bool) :
    CmpPos ⟨al, ac, false⟩ ⟨bl, bc, bf⟩ ≤ 0 ↔ (al < bl ∨ (al = bl ∧ ac ≤ bc)) :=
  cmpPos_le_zero_iff _ _ rfl

/-- Constructor variant of the strict order characterisation, for simp. -/
theorem cmpPos_mk_pos (al ac bl bc : Int) (bf : Bool) :
    CmpPos ⟨al, ac, false⟩ ⟨bl, bc, bf⟩ > 0 ↔ (bl < al ∨ (bl = al ∧ bc < ac)) :=
  cmpPos_pos_iff _ _ rfl

/-- Constructor variant of the equality characterisation, for simp. -/
theorem cmpPos_mk_eq_zero (al ac bl bc : Int) (bf : Bool) :
    CmpPos ⟨al, ac, false⟩ ⟨bl, bc, bf⟩ = 0 ↔ (al = bl ∧ ac = bc) :=
  cmpPos_eq_zero_iff _ _ rfl

/-- Evaluation of CmpPos when the left argument is a line-number position:
the column is ignored and only the lines are compared. -/
theorem cmpPos_mk_true (al ac bl bc : Int) (bf : Bool) :
    CmpPos ⟨al, ac, true⟩ ⟨bl, bc, bf⟩ =
      (if al < bl then -1 else if al = bl then 0 else 1) := by
  unfold CmpPos
  simp

/-- Claim C6, counterexample: a line-number position compares as equal to a
text position on the same line, not as after it, so CmpPos(a, b) equals
-CmpPos(b, a) fails for such a mixed pair. -/
theorem cmpPos_antisym_counterexample :
    CmpPos ⟨0, 5, false⟩ ⟨0, 0, true⟩ = 1 ∧
    CmpPos ⟨0, 0, true⟩ ⟨0, 5, false⟩ = 0 ∧
    CmpPos ⟨0, 5, false⟩ ⟨0, 0, true⟩ ≠ -CmpPos ⟨0, 0, true⟩ ⟨0, 5, false⟩ := by
  decide

/-- Claim C6, amended: CmpPos is lexicographic on (line, column) for
positions outside the line-number gutter; a line-number position compares
as equal to every position on its own line (not only to other line-number
positions) and by line alone otherwise; the antisymmetry
CmpPos(a, b) = -CmpPos(b, a) holds whenever the two flags agree or the
lines differ, but can fail for a mixed pair on the same line. -/
theorem cmpPos_order_amended (a b : CharPos) :
    (a.IsLineNumber = false → b.IsLineNumber = false → CmpPos a b = lexCmpPos a b) ∧
    (a.IsLineNumber = true →
      (a.Line = b.Line → CmpPos a b = 0) ∧
      (a.Line < b.Line → CmpPos a b = -1) ∧
      (b.Line < a.Line → CmpPos a b = 1)) ∧
    ((a.IsLineNumber = b.IsLineNumber ∨ a.Line ≠ b.Line) → CmpPos a b = -CmpPos b a) := by
  obtain ⟨al, ac, af⟩ := a
  obtain ⟨bl, bc, bf⟩ := b
  refine ⟨?_, ?_, ?_⟩
  · intro ha hb
    have ha' : af = false := ha
    have hb' : bf = false := hb
    subst ha'; subst hb'
    rw [cmpPos_mk_false]
    unfold lexCmpPos
    dsimp only
    split_ifs <;> omega
  · intro ha
    have ha' : af = true := ha
    subst ha'
    refine ⟨?_, ?_, ?_⟩
    · intro h
      have h2 : al = bl := h
      rw [cmpPos_mk_true]
      split_ifs <;> omega
    · intro h
      have h2 : al < bl := h
      rw [cmpPos_mk_true]
      split_ifs <;> omega
    · intro h
      have h2 : bl < al := h
      rw [cmpPos_mk_true]
      split_ifs <;> omega
  · intro h
    cases af <;> cases bf
    · rw [cmpPos_mk_false, cmpPos_mk_false]
      split_ifs <;> omega
    · rcases h with h | h
      · simp at h
      · have hl : al ≠ bl := h
        rw [cmpPos_mk_false, cmpPos_mk_true]
        split_ifs <;> omega
    · rcases h with h | h
      · simp at h
      · have hl : al ≠ bl := h
        rw [cmpPos_mk_true, cmpPos_mk_false]
        split_ifs <;> omega
    · rw [cmpPos_mk_true, cmpPos_mk_true]
      split_ifs <;> omega

/-- Claim C6, witness for the amended theorem at concrete positions. -/
theorem cmpPos_order_amended_witness :
    CmpPos ⟨1, 2, false⟩ ⟨1, 7, false⟩ = lexCmpPos ⟨1, 2, false⟩ ⟨1, 7, false⟩ ∧
    CmpPos ⟨1, 2, false⟩ ⟨1, 7, false⟩ = -CmpPos ⟨1, 7, false⟩ ⟨1, 2, false⟩ :=
  ⟨(cmpPos_order_amended ⟨1, 2, false⟩ ⟨1, 7, false⟩).1 rfl rfl,
   (cmpPos_order_amended ⟨1, 2, false⟩ ⟨1, 7, false⟩).2.2 (Or.inl rfl)⟩

/-! Claim C5: bounds established by Sanitize. -/

/-- Claim C5, counterexample: sanitizing the interval from (-1, 5) to
(0, 0) against lastPos (0, 0) yields start (0, 5) after the componentwise
clamp, which lies after the untouched end (0, 0); the claimed chain
0 ≤ start ≤ end ≤ lastPos fails even though lastPos ≥ (0, 0). -/
theorem sanitize_bounds_counterexample :
    CmpPos ⟨0, 0, false⟩ ⟨0, 0, false⟩ ≤ 0 ∧
    (CharInterval.Sanitize ⟨⟨-1, 5, false⟩, ⟨0, 0, false⟩⟩ ⟨0, 0, false⟩).Start = ⟨0, 5, false⟩ ∧
    (CharInterval.Sanitize ⟨⟨-1, 5, false⟩, ⟨0, 0, false⟩⟩ ⟨0, 0, false⟩).End = ⟨0, 0, false⟩ ∧
    ¬ CmpPos (CharInterval.Sanitize ⟨⟨-1, 5, false⟩, ⟨0, 0, false⟩⟩ ⟨0, 0, false⟩).Start
        (CharInterval.Sanitize ⟨⟨-1, 5, false⟩, ⟨0, 0, false⟩⟩ ⟨0, 0, false⟩).End ≤ 0 := by
  decide

/-- Sanitize does produce an interval with 0 ≤ start ≤ end ≤ lastPos when
the input endpoints are componentwise nonnegative non-gutter positions
whose smaller endpoint does not lie beyond lastPos. Shared helper used by
the claim C5 theorem and the delete pipeline. -/
theorem sanitize_cases (s e lp : CharPos) :
    CharInterval.Sanitize ⟨s, e⟩ lp =
      (if CmpPos s e > 0
       then (if CmpPos s lp > 0
             then ⟨⟨max e.Line 0, max e.Column 0, false⟩, lp⟩
             else ⟨⟨max e.Line 0, max e.Column 0, false⟩, s⟩)
       else (if CmpPos e lp > 0
             then ⟨⟨max s.Line 0, max s.Column 0, false⟩, lp⟩
             else ⟨⟨max s.Line 0, max s.Column 0, false⟩, e⟩)) := by
  unfold CharInterval.Sanitize CharInterval.MaybeSwap
  by_cases h : CmpPos s e > 0 <;> simp [h]

theorem sanitize_spec (c : CharInterval) (lastPos : CharPos)
    (hsf : c.Start.IsLineNumber = false) (hef : c.End.IsLineNumber = false)
    (hlf : lastPos.IsLineNumber = false)
    (hs1 : 0 ≤ c.Start.Line) (hs2 : 0 ≤ c.Start.Column)
    (he1 : 0 ≤ c.End.Line) (he2 : 0 ≤ c.End.Column)
    (hmin : CmpPos (MinPos c.Start c.End) lastPos ≤ 0) :
    CmpPos ⟨0, 0, false⟩ (c.Sanitize lastPos).Start ≤ 0 ∧
    CmpPos (c.Sanitize lastPos).Start (c.Sanitize lastPos).End ≤ 0 ∧
    CmpPos (c.Sanitize lastPos).End lastPos ≤ 0 := by
  obtain ⟨⟨sl, sc, sf⟩, ⟨el, ec, ef⟩⟩ := c
  obtain ⟨ll, lc, lf⟩ := lastPos
  dsimp only at hsf hef hlf hs1 hs2 he1 he2
  subst hsf; subst hef; subst hlf
  rw [sanitize_cases]
  unfold MinPos at hmin
  split_ifs at hmin ⊢ <;>
    dsimp only <;>
    simp only [cmpPos_mk_le_zero, cmpPos_mk_pos, sup_eq_max, true_and] at * <;>
    omega

/-- Claim C5, amended: the sanitized interval satisfies
0 ≤ start ≤ end ≤ lastPos provided the input endpoints are non-gutter
positions with nonnegative lines and columns and the smaller endpoint does
not lie beyond lastPos; without those provisos the chain can fail, as the
counterexample shows. -/
theorem sanitize_bounds_amended (c : CharInterval) (lastPos : CharPos)
    (hsf : c.Start.IsLineNumber = false) (hef : c.End.IsLineNumber = false)
    (hlf : lastPos.IsLineNumber = false)
    (hs1 : 0 ≤ c.Start.Line) (hs2 : 0 ≤ c.Start.Column)
    (he1 : 0 ≤ c.End.Line) (he2 : 0 ≤ c.End.Column)
    (hmin : CmpPos (MinPos c.Start c.End) lastPos ≤ 0) :
    CmpPos ⟨0, 0, false⟩ (c.Sanitize lastPos).Start ≤ 0 ∧
    CmpPos (c.Sanitize lastPos).Start (c.Sanitize lastPos).End ≤ 0 ∧
    CmpPos (c.Sanitize lastPos).End lastPos ≤ 0 :=
  sanitize_spec c lastPos hsf hef hlf hs1 hs2 he1 he2 hmin

/-- Claim C5, witness for the amended theorem: a concrete out-of-bounds
interval sanitized against lastPos (1, 3). -/
theorem sanitize_bounds_amended_witness :
    CmpPos (MinPos ⟨0, 2, false⟩ ⟨9, 9, false⟩) ⟨1, 3, false⟩ ≤ 0 ∧
    (CmpPos ⟨0, 0, false⟩ ((CharInterval.Sanitize ⟨⟨0, 2, false⟩, ⟨9, 9, false⟩⟩ ⟨1, 3, false⟩)).Start ≤ 0 ∧
     CmpPos ((CharInterval.Sanitize ⟨⟨0, 2, false⟩, ⟨9, 9, false⟩⟩ ⟨1, 3, false⟩)).Start
       ((CharInterval.Sanitize ⟨⟨0, 2, false⟩, ⟨9, 9, false⟩⟩ ⟨1, 3, false⟩)).End ≤ 0 ∧
     CmpPos ((CharInterval.Sanitize ⟨⟨0, 2, false⟩, ⟨9, 9, false⟩⟩ ⟨1, 3, false⟩)).End ⟨1, 3, false⟩ ≤ 0) :=
  ⟨by decide,
   sanitize_bounds_amended ⟨⟨0, 2, false⟩, ⟨9, 9, false⟩⟩ ⟨1, 3, false⟩
     rfl rfl rfl (by decide) (by decide) (by decide) (by decide) (by decide)⟩

/-- Claim C1: on the sanitized pair of a tag interval from (0,5) to (1,3)
and a deletion interval from (0,6) to (1,0) - both with start before end
and inside a two-line document - case 1 fires and stores the interval from
(0,5) to (0,3), whose start lies strictly after its end: the procedure
does not preserve start before end, refuting the claimed invariant on the
stored interval. The correct relocated end would be column 9 on line 0. -/
theorem deleteAdjust_storedInterval_inverted :
    CmpPos (⟨0, 5, false⟩ : CharPos) ⟨1, 3, false⟩ ≤ 0 ∧
    CmpPos (⟨0, 6, false⟩ : CharPos) ⟨1, 0, false⟩ ≤ 0 ∧
    maybeAdjustTagIntervalForDelete 7 ⟨⟨0, 5, false⟩, ⟨1, 3, false⟩⟩ ⟨⟨0, 6, false⟩, ⟨1, 0, false⟩⟩
      = .adjusted ⟨⟨0, 5, false⟩, ⟨0, 3, false⟩⟩ ∧
    CmpPos (⟨0, 5, false⟩ : CharPos) ⟨0, 3, false⟩ > 0 := by
  decide

/-- Claim C4: a tag whose interval starts on the insertion line strictly
after the insertion column is shifted right by the inserted length before
reflow, and its end column shifts as well exactly when the end lies on the
insertion line. -/
theorem insert_shifts_tag (pos : CharPos) (lenInsert : Int) (interval : CharInterval)
    (h1 : interval.Start.Line = pos.Line) (h2 : pos.Column < interval.Start.Column) :
    (insertAdjustTag pos lenInsert interval).Start.Line = interval.Start.Line ∧
    (insertAdjustTag pos lenInsert interval).Start.Column
      = interval.Start.Column + lenInsert ∧
    (interval.End.Line = pos.Line →
      (insertAdjustTag pos lenInsert interval).End.Line = interval.End.Line ∧
      (insertAdjustTag pos lenInsert interval).End.Column
        = interval.End.Column + lenInsert) ∧
    (interval.End.Line ≠ pos.Line →
      (insertAdjustTag pos lenInsert interval).End = interval.End) := by
  unfold insertAdjustTag
  rw [if_pos h1, if_pos h2]
  by_cases h3 : interval.End.Line = pos.Line
  · rw [if_pos h3]
    exact ⟨rfl, rfl, fun _ => ⟨rfl, rfl⟩, fun hc => absurd h3 hc⟩
  · rw [if_neg h3]
    exact ⟨rfl, rfl, fun hc => absurd hc h3, fun _ => rfl⟩

/-- Claim C4, witness: a tag covering columns 2 to 4 of a single row,
with 3 characters inserted at column 0 of that row, moves to columns 5 to
7 of the same row. -/
theorem insert_shifts_tag_witness :
    ((⟨⟨0, 2, false⟩, ⟨0, 4, false⟩⟩ : CharInterval).Start.Line = (⟨0, 0, false⟩ : CharPos).Line ∧
     (⟨0, 0, false⟩ : CharPos).Column < (⟨⟨0, 2, false⟩, ⟨0, 4, false⟩⟩ : CharInterval).Start.Column) ∧
    ((insertAdjustTag ⟨0, 0, false⟩ 3 ⟨⟨0, 2, false⟩, ⟨0, 4, false⟩⟩).Start.Line
       = (⟨⟨0, 2, false⟩, ⟨0, 4, false⟩⟩ : CharInterval).Start.Line ∧
     (insertAdjustTag ⟨0, 0, false⟩ 3 ⟨⟨0, 2, false⟩, ⟨0, 4, false⟩⟩).Start.Column
       = (⟨⟨0, 2, false⟩, ⟨0, 4, false⟩⟩ : CharInterval).Start.Column + 3 ∧
     ((⟨⟨0, 2, false⟩, ⟨0, 4, false⟩⟩ : CharInterval).End.Line = (⟨0, 0, false⟩ : CharPos).Line →
       (insertAdjustTag ⟨0, 0, false⟩ 3 ⟨⟨0, 2, false⟩, ⟨0, 4, false⟩⟩).End.Line
         = (⟨⟨0, 2, false⟩, ⟨0, 4, false⟩⟩ : CharInterval).End.Line ∧
       (insertAdjustTag ⟨0, 0, false⟩ 3 ⟨⟨0, 2, false⟩, ⟨0, 4, false⟩⟩).End.Column
         = (⟨⟨0, 2, false⟩, ⟨0, 4, false⟩⟩ : CharInterval).End.Column + 3) ∧
     ((⟨⟨0, 2, false⟩, ⟨0, 4, false⟩⟩ : CharInterval).End.Line ≠ (⟨0, 0, false⟩ : CharPos).Line →
       (insertAdjustTag ⟨0, 0, false⟩ 3 ⟨⟨0, 2, false⟩, ⟨0, 4, false⟩⟩).End
         = (⟨⟨0, 2, false⟩, ⟨0, 4, false⟩⟩ : CharInterval).End)) :=
  ⟨⟨rfl, by decide⟩,
   insert_shifts_tag ⟨0, 0, false⟩ 3 ⟨⟨0, 2, false⟩, ⟨0, 4, false⟩⟩ rfl (by decide)⟩

/-- Claim C7: a wrong magic constant fails the load with ErrInvalidStream,
a too-high minimum version (behind a correct magic) fails it with
ErrVersionTooLow, the two errors are distinct, and in both cases the
buffer rows are returned unmodified. -/
theorem load_rejects_bad_header (cfg : SizeGuardConfig) (rows : List (List Char))
    (h : GoHeader) (streamRows : List (List Char)) :
    (h.Magic ≠ MAGIC →
      EditorLoad cfg rows h streamRows = (rows, some .invalidStream)) ∧
    (h.Magic = MAGIC → VERSION < h.MinVersion →
      EditorLoad cfg rows h streamRows = (rows, some .versionTooLow)) ∧
    LoadError.invalidStream ≠ LoadError.versionTooLow := by
  refine ⟨?_, ?_, by decide⟩
  · intro hm
    unfold EditorLoad loadHeader
    rw [if_pos hm]
  · intro hm hv
    unfold EditorLoad loadHeader
    rw [if_neg (by simp [hm]), if_pos hv]

/-- Claim C7, witness: a header with a wrong magic is rejected with
ErrInvalidStream and one with a too-high minimum version with
ErrVersionTooLow, each leaving the single-row buffer untouched. -/
theorem load_rejects_bad_header_witness :
    EditorLoad ⟨1000000, 1000000, 0⟩ [['x', '\n']] ⟨0, 100, 100, false⟩ []
      = ([['x', '\n']], some .invalidStream) ∧
    EditorLoad ⟨1000000, 1000000, 0⟩ [['x', '\n']] ⟨MAGIC, 101, 101, false⟩ []
      = ([['x', '\n']], some .versionTooLow) :=
  ⟨(load_rejects_bad_header ⟨1000000, 1000000, 0⟩ [['x', '\n']] ⟨0, 100, 100, false⟩ []).1
      (by decide),
   (load_rejects_bad_header ⟨1000000, 1000000, 0⟩ [['x', '\n']] ⟨MAGIC, 101, 101, false⟩ []).2.1
      rfl (by decide)⟩

/-- Claim C8: with MaxLines configured to 1, loading a valid stream whose
document has two lines succeeds and installs both lines, with no error.
The source declares the guard fields and the errors ErrTooManyLines,
ErrTooLongLine and ErrTooManyTags, but Load and loadText never check them,
so the configured size guard is not enforced. -/
theorem load_ignores_size_guard :
    EditorLoad ⟨1, 1, 1⟩ [['x', '\n']] ⟨MAGIC, 100, 100, false⟩
        [['a', 'b', '\n'], ['c', 'd', '\n']]
      = ([['a', 'b', '\n'], ['c', 'd', '\n']], none) := by
  decide

theorem wrapStep_spec (wrapCol : Int) (s : WrapState) (c : XCell) :
    ∃ pre : List (List Char),
      (wrapStep wrapCol s c).result = s.result ++ pre ∧
      (∀ r ∈ pre, ∀ ch ∈ r, ∃ x ∈ s.line ++ [c], x.Rune = ch) ∧
      (∀ x ∈ (wrapStep wrapCol s c).line, x ∈ s.line ++ [c]) ∧
      ((wrapStep wrapCol s c).handled = true → pre ≠ []) := by
  unfold wrapStep
  dsimp only
  by_cases h1 : s.lpos + 1 ≥ wrapCol
  · rw [if_pos h1]
    by_cases h2 : cutPosOf (s.lpos + 1) (nextLastSpc c (s.lpos + 1) s.lastSpc) ≥ wrapCol.tdiv 2 ∧
        cutPosOf (s.lpos + 1) (nextLastSpc c (s.lpos + 1) s.lastSpc) < (((s.line ++ [c]).length : Nat) : Int)
    · rw [if_pos h2]
      refine ⟨[((s.line ++ [c]).take
          (cutPosOf (s.lpos + 1) (nextLastSpc c (s.lpos + 1) s.lastSpc)).toNat).map XCell.Rune],
        ?_, ?_, ?_, ?_⟩
      · rfl
      · intro r hr ch hch
        simp only [List.mem_singleton] at hr
        subst hr
        simp only [List.mem_map] at hch
        obtain ⟨x, hx, hxr⟩ := hch
        exact ⟨x, List.take_subset _ _ hx, hxr⟩
      · intro x hx
        exact List.drop_subset _ _ hx
      · intro hcontra
        simp [wrapStepSplit] at hcontra
    · rw [if_neg h2]
      refine ⟨[(s.line ++ [c]).map XCell.Rune], ?_, ?_, ?_, ?_⟩
      · rfl
      · intro r hr ch hch
        simp only [List.mem_singleton] at hr
        subst hr
        simp only [List.mem_map] at hch
        obtain ⟨x, hx, hxr⟩ := hch
        exact ⟨x, hx, hxr⟩
      · intro x hx
        simp [wrapStepFlush] at hx
      · intro _
        simp
  · rw [if_neg h1]
    refine ⟨[], by simp, by simp, ?_, by simp⟩
    intro x hx
    exact hx

theorem foldl_wrapStep_spec (wrapCol : Int) :
    ∀ (l : List XCell) (s : WrapState),
      ∃ pre : List (List Char),
        (l.foldl (wrapStep wrapCol) s).result = s.result ++ pre ∧
        (∀ r ∈ pre, ∀ ch ∈ r, ∃ x, (x ∈ s.line ∨ x ∈ l) ∧ x.Rune = ch) ∧
        (∀ x ∈ (l.foldl (wrapStep wrapCol) s).line, x ∈ s.line ∨ x ∈ l)
  | [], s => ⟨[], by simp, by simp, by simp⟩
  | c :: l, s => by
    obtain ⟨pre0, he0, hm0, hl0, _⟩ := wrapStep_spec wrapCol s c
    obtain ⟨pre1, he1, hm1, hl1⟩ := foldl_wrapStep_spec wrapCol l (wrapStep wrapCol s c)
    refine ⟨pre0 ++ pre1, ?_, ?_, ?_⟩
    · simp only [List.foldl_cons, he1, he0, List.append_assoc]
    · intro r hr ch hch
      rcases List.mem_append.mp hr with hr | hr
      · obtain ⟨x, hx, hxr⟩ := hm0 r hr ch hch
        rcases List.mem_append.mp hx with hx | hx
        · exact ⟨x, Or.inl hx, hxr⟩
        · exact ⟨x, Or.inr (by simpa using Or.inl (List.mem_singleton.mp hx)), hxr⟩
      · obtain ⟨x, hx, hxr⟩ := hm1 r hr ch hch
        rcases hx with hx | hx
        · rcases List.mem_append.mp (hl0 x hx) with h | h
          · exact ⟨x, Or.inl h, hxr⟩
          · exact ⟨x, Or.inr (by simpa using Or.inl (List.mem_singleton.mp h)), hxr⟩
        · exact ⟨x, Or.inr (List.mem_cons_of_mem c hx), hxr⟩
    · intro x hx
      rcases hl1 x (by simpa using hx) with h | h
      · rcases List.mem_append.mp (hl0 x h) with h2 | h2
        · exact Or.inl h2
        · exact Or.inr (by simpa using Or.inl (List.mem_singleton.mp h2))
      · exact Or.inr (List.mem_cons_of_mem c h)

theorem foldl_wrapStep_handled (wrapCol : Int) :
    ∀ (l : List XCell) (s : WrapState),
      (s.handled = true → s.result ≠ []) →
      ((l.foldl (wrapStep wrapCol) s).handled = true → (l.foldl (wrapStep wrapCol) s).result ≠ [])
  | [], s, hs => hs
  | c :: l, s, hs => by
    refine foldl_wrapStep_handled wrapCol l (wrapStep wrapCol s c) ?_
    intro hh
    obtain ⟨pre, he, _, _, hne⟩ := wrapStep_spec wrapCol s c
    rw [he]
    simp [hne hh]

/-! List helper lemmas. -/

theorem getD_last_eq_getLast {α : Type} (l : List α) (d : α) (h : l ≠ []) :
    l.getD (l.length - 1) d = l.getLast h := by
  induction l with
  | nil => exact absurd rfl h
  | cons a t ih =>
    cases t with
    | nil => rfl
    | cons b t2 =>
      have := ih (List.cons_ne_nil b t2)
      simpa [List.getD, List.getLast_cons] using this

theorem set_last_eq {α : Type} (l : List α) (v : α) (h : l ≠ []) :
    l.set (l.length - 1) v = l.dropLast ++ [v] := by
  induction l with
  | nil => exact absurd rfl h
  | cons a t ih =>
    cases t with
    | nil => rfl
    | cons b t2 =>
      have := ih (List.cons_ne_nil b t2)
      simp only [List.length_cons, Nat.add_sub_cancel] at this ⊢
      show (a :: b :: t2).set (t2.length + 1) v = (a :: b :: t2).dropLast ++ [v]
      rw [List.set_cons_succ, List.dropLast_cons₂, List.cons_append]
      congr 1

theorem getLastD_concat2 {α : Type} (l : List α) (a d : α) :
    (l ++ [a]).getLastD d = a := by
  induction l with
  | nil => rfl
  | cons b t ih => simp [List.getLastD, ih]

theorem getLastD_drop {α : Type} :
    ∀ (n : Nat) (l : List α) (d : α), l.drop n ≠ [] → (l.drop n).getLastD d = l.getLastD d
  | 0, _, _, _ => rfl
  | n+1, [], _, h => absurd rfl h
  | n+1, a :: t, d, h => by
    simp only [List.drop_succ_cons] at h ⊢
    rw [getLastD_drop n t d h]
    cases t with
    | nil => simp at h
    | cons b t2 => rfl

theorem getLastD_append_right {α : Type} (l1 l2 : List α) (d : α) (h : l2 ≠ []) :
    (l1 ++ l2).getLastD d = l2.getLastD d := by
  induction l1 with
  | nil => rfl
  | cons a t ih =>
    rw [List.cons_append]
    cases t with
    | nil =>
      cases l2 with
      | nil => exact absurd rfl h
      | cons c t3 => rfl
    | cons b t2 =>
      rw [← ih]
      rfl

/-! Shape of the rows returned by WordWrapRows. -/

theorem wordWrapRows_shape (wrapCol : Int) (softWrap : Bool) (hardLF softLF : Char)
    (cursorRow cursorCol : Int) (inRows : List (List Char)) :
    (wordWrapRows wrapCol softWrap hardLF softLF cursorRow cursorCol inRows).rows ≠ [] ∧
    ∃ body, (wordWrapRows wrapCol softWrap hardLF softLF cursorRow cursorCol inRows).rows.getLastD []
      = body ++ [hardLF] := by
  unfold wordWrapRows
  set fp := flattenParaRows hardLF softLF cursorRow cursorCol 0 inRows false with hfp
  set s0 : WrapState :=
    { result := [], line := [], lastSpc := 0, lpos := 0, lineIdx := 0,
      newCol := cursorCol, newRow := 0, handled := false } with hs0
  set s1 := fp.1.foldl (wrapStep wrapCol) s0 with hs1
  set s2 := if s1.handled then s1 else wrapEmitRow s1 s1.line with hs2
  have hres : s2.result ≠ [] := by
    rw [hs2]
    split
    · next hh =>
      refine foldl_wrapStep_handled wrapCol fp.1 s0 ?_ hh
      intro h0
      simp [hs0] at h0
    · exact fun hc => by simp [wrapEmitRow] at hc
  set res1 := s2.result.map (fun r => r ++ [if softWrap then softLF else hardLF]) with hres1
  have hres1ne : res1 ≠ [] := by
    simp [hres1, hres]
  set k := res1.length - 1 with hk
  set lastRow := res1.getD k [] with hlast
  have hlastEq : lastRow = res1.getLast hres1ne := by
    rw [hlast, hk, getD_last_eq_getLast res1 [] hres1ne]
  have hlastMem : lastRow ∈ res1 := hlastEq ▸ List.getLast_mem hres1ne
  obtain ⟨b0, hb0mem, hb0⟩ := List.mem_map.mp (hres1 ▸ hlastMem)
  have hlastNe : lastRow ≠ [] := by
    rw [← hb0]
    simp
  have hsetLast : lastRow.set (lastRow.length - 1) hardLF = lastRow.dropLast ++ [hardLF] :=
    set_last_eq lastRow hardLF hlastNe
  have hsetRows : res1.set k (lastRow.set (lastRow.length - 1) hardLF)
      = res1.dropLast ++ [lastRow.dropLast ++ [hardLF]] := by
    rw [hsetLast, hk]
    exact set_last_eq res1 _ hres1ne
  dsimp only
  rw [hsetRows]
  constructor
  · simp
  · refine ⟨lastRow.dropLast, ?_⟩
    rw [getLastD_append_right _ _ _ (by simp)]
    simp [List.getLastD]

theorem flattenRow_good (hardLF softLF : Char) (cr cc i rowLen : Int) :
    ∀ (body : List Char) (dd : Char) (j : Int) (ctn : Bool),
      (∀ ch ∈ body, ch ≠ hardLF ∧ ch ≠ softLF) → (dd = hardLF ∨ dd = softLF) →
      j + (body.length : Int) = rowLen - 1 →
      ∀ x ∈ (flattenRow hardLF softLF cr cc i rowLen j (body ++ [dd]) ctn).1,
        x.Rune ≠ hardLF ∧ x.Rune ≠ softLF
  | [], dd, j, ctn, _, hd, hj => by
    intro x hx
    have hj' : j = rowLen - 1 := by simpa using hj
    simp only [List.nil_append] at hx
    unfold flattenRow at hx
    split at hx
    · simp [flattenRow] at hx
    · next hcond =>
      exfalso
      apply hcond
      rcases hd with rfl | rfl
      · simp [hj']
      · simp
  | ch :: body, dd, j, ctn, hgood, hd, hj => by
    intro x hx
    have hch := hgood ch (List.mem_cons_self ch body)
    simp only [List.cons_append] at hx
    unfold flattenRow at hx
    split at hx
    · next hcond =>
      exfalso
      simp only [Bool.or_eq_true, Bool.and_eq_true, beq_iff_eq] at hcond
      rcases hcond with ⟨h1, _⟩ | h1
      · exact hch.1 h1
      · exact hch.2 h1
    · rcases List.mem_cons.mp hx with hx | hx
      · subst hx
        exact hch
      · exact flattenRow_good hardLF softLF cr cc i rowLen body dd (j + 1) false
          (fun c hc => hgood c (List.mem_cons_of_mem ch hc)) hd
          (by simp only [List.length_cons] at hj; push_cast at hj ⊢; omega) x hx

theorem flattenParaRows_good (hardLF softLF : Char) (cr cc : Int) :
    ∀ (rows : List (List Char)) (i : Int) (ctn : Bool),
      (∀ r ∈ rows, RowWF hardLF softLF r) →
      ∀ x ∈ (flattenParaRows hardLF softLF cr cc i rows ctn).1,
        x.Rune ≠ hardLF ∧ x.Rune ≠ softLF
  | [], _, _, _ => by
    intro x hx
    simp [flattenParaRows] at hx
  | row :: rest, i, ctn, h => by
    intro x hx
    unfold flattenParaRows at hx
    rcases List.mem_append.mp hx with hx | hx
    · obtain ⟨body, dd, hr, hd, hgood⟩ := h row (List.mem_cons_self row rest)
      rw [hr] at hx
      refine flattenRow_good hardLF softLF cr cc i (((body ++ [dd]).length : Nat) : Int) body dd 0 ctn
        hgood hd ?_ x hx
      simp only [List.length_append, List.length_singleton]
      push_cast
      omega
    · exact flattenParaRows_good hardLF softLF cr cc rest (i + 1) _
        (fun r hr => h r (List.mem_cons_of_mem row hr)) x hx

theorem wordWrapRows_structure (wrapCol : Int) (softWrap : Bool) (hardLF softLF : Char)
    (cursorRow cursorCol : Int) (inRows : List (List Char))
    (hwf : ∀ r ∈ inRows, RowWF hardLF softLF r) :
    (wordWrapRows wrapCol softWrap hardLF softLF cursorRow cursorCol inRows).rows ≠ [] ∧
    (∀ r ∈ (wordWrapRows wrapCol softWrap hardLF softLF cursorRow cursorCol inRows).rows.dropLast,
      ∃ body, r = body ++ [if softWrap then softLF else hardLF] ∧
        ∀ ch ∈ body, ch ≠ hardLF ∧ ch ≠ softLF) ∧
    (∃ body,
      (wordWrapRows wrapCol softWrap hardLF softLF cursorRow cursorCol inRows).rows.getLastD []
        = body ++ [hardLF] ∧ ∀ ch ∈ body, ch ≠ hardLF ∧ ch ≠ softLF) := by
  unfold wordWrapRows
  set fp := flattenParaRows hardLF softLF cursorRow cursorCol 0 inRows false with hfp
  set s0 : WrapState :=
    { result := [], line := [], lastSpc := 0, lpos := 0, lineIdx := 0,
      newCol := cursorCol, newRow := 0, handled := false } with hs0
  set s1 := fp.1.foldl (wrapStep wrapCol) s0 with hs1
  set s2 := if s1.handled then s1 else wrapEmitRow s1 s1.line with hs2
  have hcells : ∀ x ∈ fp.1, x.Rune ≠ hardLF ∧ x.Rune ≠ softLF :=
    flattenParaRows_good hardLF softLF cursorRow cursorCol inRows 0 false hwf
  obtain ⟨pre, hpre_eq, hpre_mem, hline_mem⟩ := foldl_wrapStep_spec wrapCol fp.1 s0
  have hs1res : ∀ r ∈ s1.result, ∀ ch ∈ r, ch ≠ hardLF ∧ ch ≠ softLF := by
    intro r hr ch hch
    rw [hs1, hpre_eq] at hr
    simp only [hs0, List.nil_append] at hr
    obtain ⟨x, hx, hxr⟩ := hpre_mem r hr ch hch
    rcases hx with hx | hx
    · simp [hs0] at hx
    · exact hxr ▸ hcells x hx
  have hs1line : ∀ x ∈ s1.line, x.Rune ≠ hardLF ∧ x.Rune ≠ softLF := by
    intro x hx
    rcases hline_mem x (hs1 ▸ hx) with h | h
    · simp [hs0] at h
    · exact hcells x h
  have hres : s2.result ≠ [] := by
    rw [hs2]
    split
    · next hh =>
      refine foldl_wrapStep_handled wrapCol fp.1 s0 ?_ hh
      intro h0
      simp [hs0] at h0
    · exact fun hc => by simp [wrapEmitRow] at hc
  have hs2res : ∀ r ∈ s2.result, ∀ ch ∈ r, ch ≠ hardLF ∧ ch ≠ softLF := by
    rw [hs2]
    split
    · exact hs1res
    · intro r hr ch hch
      simp only [wrapEmitRow, List.mem_append, List.mem_singleton] at hr
      rcases hr with hr | hr
      · exact hs1res r hr ch hch
      · subst hr
        simp only [xCellsToRow, List.mem_map] at hch
        obtain ⟨x, hx, hxr⟩ := hch
        exact hxr ▸ hs1line x hx
  set res1 := s2.result.map (fun r => r ++ [if softWrap then softLF else hardLF]) with hres1
  have hres1ne : res1 ≠ [] := by
    simp [hres1, hres]
  have hres1rows : ∀ r ∈ res1, ∃ body, r = body ++ [if softWrap then softLF else hardLF] ∧
      ∀ ch ∈ body, ch ≠ hardLF ∧ ch ≠ softLF := by
    intro r hr
    rw [hres1] at hr
    obtain ⟨b, hb, hbr⟩ := List.mem_map.mp hr
    exact ⟨b, hbr.symm, fun ch hch => hs2res b hb ch hch⟩
  set k := res1.length - 1 with hk
  set lastRow := res1.getD k [] with hlast
  have hlastEq : lastRow = res1.getLast hres1ne := by
    rw [hlast, hk, getD_last_eq_getLast res1 [] hres1ne]
  have hlastMem : lastRow ∈ res1 := hlastEq ▸ List.getLast_mem hres1ne
  obtain ⟨b0, hb0, hb0good⟩ := hres1rows lastRow hlastMem
  have hlastNe : lastRow ≠ [] := by
    rw [hb0]
    simp
  have hsetRows : res1.set k (lastRow.set (lastRow.length - 1) hardLF)
      = res1.dropLast ++ [b0 ++ [hardLF]] := by
    rw [set_last_eq lastRow hardLF hlastNe, hk, set_last_eq res1 _ hres1ne, hb0]
    rw [List.dropLast_concat]
  dsimp only
  rw [hsetRows]
  refine ⟨by simp, ?_, ?_⟩
  · intro r hr
    rw [List.dropLast_concat] at hr
    exact hres1rows r ((List.dropLast_sublist res1).subset hr)
  · refine ⟨b0, ?_, hb0good⟩
    rw [getLastD_append_right _ _ _ (by simp)]
    simp [List.getLastD]

/-! Claim C2: the concrete hello world wrap scenario. -/

/-- Claim C2, counterexample: wrapping the single paragraph containing
hello world followed by the hard delimiter at column width 5 with
soft-wrap on does not produce the two claimed rows; it produces three
rows, with the space carried to the second row and the word world split.
The candidate break at the space is rejected because the space sits
closer to the row start than half the wrap width, as described in the
algorithm's own break rule. -/
theorem wordWrap_helloWorld_counterexample :
    (wordWrapRows 5 true '\n' '\r' 0 0
        [['h', 'e', 'l', 'l', 'o', ' ', 'w', 'o', 'r', 'l', 'd', '\n']]).rows.length ≠ 2 ∧
    (wordWrapRows 5 true '\n' '\r' 0 0
        [['h', 'e', 'l', 'l', 'o', ' ', 'w', 'o', 'r', 'l', 'd', '\n']]).rows
      ≠ [['h', 'e', 'l', 'l', 'o', '\r'], ['w', 'o', 'r', 'l', 'd', '\n']] := by
  decide

/-- Claim C2, amended: the same input reflows to exactly three rows,
hello with the soft delimiter, then the space and worl with the soft
delimiter, then d with the hard delimiter. -/
theorem wordWrap_helloWorld_amended :
    (wordWrapRows 5 true '\n' '\r' 0 0
        [['h', 'e', 'l', 'l', 'o', ' ', 'w', 'o', 'r', 'l', 'd', '\n']]).rows
      = [['h', 'e', 'l', 'l', 'o', '\r'],
         [' ', 'w', 'o', 'r', 'l', '\r'],
         ['d', '\n']] := by
  decide

/-! Claim C3: one trailing delimiter per output row. -/

/-- Claim C3: for every non-empty well-formed paragraph input, every
output row of WordWrapRows consists of a delimiter-free body followed by
exactly one trailing delimiter; the rows before the last carry the soft
delimiter when soft-wrap is enabled and the hard delimiter otherwise, and
the very last output row always ends in the hard delimiter. -/
theorem wordWrap_delimiters (wrapCol : Int) (softWrap : Bool) (hardLF softLF : Char)
    (cursorRow cursorCol : Int) (inRows : List (List Char))
    (hne : inRows ≠ []) (hwf : ∀ r ∈ inRows, RowWF hardLF softLF r) :
    (wordWrapRows wrapCol softWrap hardLF softLF cursorRow cursorCol inRows).rows ≠ [] ∧
    (∀ r ∈ (wordWrapRows wrapCol softWrap hardLF softLF cursorRow cursorCol inRows).rows.dropLast,
      ∃ body, r = body ++ [if softWrap then softLF else hardLF] ∧
        ∀ ch ∈ body, ch ≠ hardLF ∧ ch ≠ softLF) ∧
    (∃ body,
      (wordWrapRows wrapCol softWrap hardLF softLF cursorRow cursorCol inRows).rows.getLastD []
        = body ++ [hardLF] ∧ ∀ ch ∈ body, ch ≠ hardLF ∧ ch ≠ softLF) :=
  wordWrapRows_structure wrapCol softWrap hardLF softLF cursorRow cursorCol inRows hwf

/-- Claim C3, witness: the paragraph consisting of the single row ab
followed by the hard delimiter, wrapped at width 4 with soft-wrap on. -/
theorem wordWrap_delimiters_witness :
    (([['a', 'b', '\n']] : List (List Char)) ≠ [] ∧
      ∀ r ∈ ([['a', 'b', '\n']] : List (List Char)), RowWF '\n' '\r' r) ∧
    ((wordWrapRows 4 true '\n' '\r' 0 0 [['a', 'b', '\n']]).rows ≠ [] ∧
     (∀ r ∈ (wordWrapRows 4 true '\n' '\r' 0 0 [['a', 'b', '\n']]).rows.dropLast,
       ∃ body, r = body ++ [if (true : Bool) then '\r' else '\n'] ∧
         ∀ ch ∈ body, ch ≠ '\n' ∧ ch ≠ '\r') ∧
     (∃ body, (wordWrapRows 4 true '\n' '\r' 0 0 [['a', 'b', '\n']]).rows.getLastD []
         = body ++ ['\n'] ∧ ∀ ch ∈ body, ch ≠ '\n' ∧ ch ≠ '\r')) :=
  have hwf : ∀ r ∈ ([['a', 'b', '\n']] : List (List Char)), RowWF '\n' '\r' r := by
    intro r hr
    simp only [List.mem_singleton] at hr
    subst hr
    exact ⟨['a', 'b'], '\n', rfl, Or.inl rfl, by decide⟩
  ⟨⟨by decide, hwf⟩,
   wordWrap_delimiters 4 true '\n' '\r' 0 0 [['a', 'b', '\n']] (by decide) hwf⟩

/-! Paragraph-scan bounds. -/

theorem fpsAux_le (rows : List (List Char)) (lf : Char) : ∀ r, fpsAux rows lf r ≤ r
  | 0 => Nat.le_refl 0
  | r + 1 => by
    unfold fpsAux
    cases (rows.getD r []).getLast? with
    | none => exact Nat.le_refl _
    | some c =>
      dsimp only
      split
      · exact Nat.le_refl _
      · exact Nat.le_succ_of_le (fpsAux_le rows lf r)

theorem findParagraphStart_le (rows : List (List Char)) (lf : Char) (row : Int) :
    findParagraphStart rows lf row ≤ row.toNat := by
  unfold findParagraphStart
  split
  · exact Nat.zero_le _
  · exact le_trans (fpsAux_le rows lf _) (min_le_left _ _)

theorem fpeAux_ge (rows : List (List Char)) (lf : Char) :
    ∀ fuel row, row ≤ fpeAux rows lf row fuel
  | 0, row => Nat.le_refl row
  | fuel + 1, row => by
    unfold fpeAux
    cases (rows.getD row []).getLast? with
    | none => exact Nat.le_refl _
    | some c =>
      dsimp only
      split
      · exact Nat.le_refl _
      · exact le_trans (Nat.le_succ row) (fpeAux_ge rows lf fuel (row + 1))

theorem fpeAux_le (rows : List (List Char)) (lf : Char) :
    ∀ fuel row, fpeAux rows lf row fuel ≤ row + fuel
  | 0, row => Nat.le_add_right row 0
  | fuel + 1, row => by
    unfold fpeAux
    cases (rows.getD row []).getLast? with
    | none => exact Nat.le_add_right _ _
    | some c =>
      dsimp only
      split
      · exact Nat.le_add_right _ _
      · calc fpeAux rows lf (row + 1) fuel ≤ (row + 1) + fuel := fpeAux_le rows lf fuel (row + 1)
          _ = row + (fuel + 1) := by omega

theorem findParagraphEnd_ge (rows : List (List Char)) (lf : Char) (row : Nat) :
    row ≤ findParagraphEnd rows lf row :=
  fpeAux_ge rows lf _ row

theorem findParagraphEnd_le (rows : List (List Char)) (lf : Char) (row : Nat)
    (h : row ≤ rows.length - 1) :
    findParagraphEnd rows lf row ≤ rows.length - 1 := by
  unfold findParagraphEnd
  calc fpeAux rows lf row (rows.length - 1 - row) ≤ row + (rows.length - 1 - row) :=
        fpeAux_le rows lf _ row
    _ ≤ rows.length - 1 := by omega

/-! More list helpers. -/

theorem drop_set_of_lt2 {α : Type} :
    ∀ (l : List α) (i : Nat) (v : α) (n : Nat), i < n → (l.set i v).drop n = l.drop n
  | [], _, _, _, _ => rfl
  | a :: t, 0, v, n + 1, _ => by simp
  | a :: t, i + 1, v, n + 1, h => by
    simp only [List.set_cons_succ, List.drop_succ_cons]
    exact drop_set_of_lt2 t i v n (by omega)

theorem drop_append_ge {α : Type} :
    ∀ (l1 l2 : List α) (n : Nat), l1.length ≤ n → (l1 ++ l2).drop n = l2.drop (n - l1.length)
  | [], l2, n, _ => by simp
  | a :: t, l2, n + 1, h => by
    simp only [List.cons_append, List.drop_succ_cons, List.length_cons]
    rw [drop_append_ge t l2 n (by simpa using h)]
    congr 1
    omega

/-! Success and shape of the row surgery. -/

theorem deleteSurgery_spec (rows : List (List Char)) (ft : CharInterval)
    (hsl0 : 0 ≤ ft.Start.Line) (hsl1 : ft.Start.Line ≤ (rows.length : Int) - 1)
    (hel0 : 0 ≤ ft.End.Line) (hel1 : ft.End.Line ≤ (rows.length : Int) - 1)
    (hsafe : ft.Start.Line ≤ ft.End.Line ∨
      (ft.Start.Line = ft.End.Line ∧ ft.Start.Column = lastColumnOf rows ft.Start.Line)) :
    ∃ rows1, deleteSurgery rows ft = some rows1 ∧ rows1 ≠ [] ∧
      ft.Start.Line.toNat + 1 ≤ rows1.length ∧
      ∀ p : Nat, ft.Start.Line.toNat ≤ p → ∃ m, rows1.drop (p + 1) = rows.drop m := by
  have hslInt : (ft.Start.Line.toNat : Int) = ft.Start.Line := Int.toNat_of_nonneg hsl0
  have helInt : (ft.End.Line.toNat : Int) = ft.End.Line := Int.toNat_of_nonneg hel0
  unfold deleteSurgery
  by_cases hsp : ft.Start.Line = ft.End.Line ∧ ft.Start.Column = lastColumnOf rows ft.Start.Line
  · rw [if_pos hsp]
    dsimp only
    by_cases hmg : (rows.length : Int) - 1 > ft.Start.Line
    · rw [if_pos hmg]
      have hsl2 : ft.Start.Line.toNat + 2 ≤ rows.length := by omega
      have htoNat1 : ((ft.Start.Line.toNat : Int) + 1).toNat = ft.Start.Line.toNat + 1 := by omega
      have htoNat2 : ((ft.Start.Line.toNat : Int) + 2).toNat = ft.Start.Line.toNat + 2 := by omega
      unfold goSlicesDelete
      rw [if_pos (by simp only [List.length_set]; omega)]
      rw [htoNat1, htoNat2]
      refine ⟨_, rfl, ?_, ?_, ?_⟩
      · intro hc
        have hlen := congrArg List.length hc
        simp only [List.length_append, List.length_take, List.length_drop, List.length_set,
          List.length_nil] at hlen
        omega
      · simp only [List.length_append, List.length_take, List.length_drop, List.length_set]
        omega
      · intro p hp
        refine ⟨ft.Start.Line.toNat + 2 + (p - ft.Start.Line.toNat), ?_⟩
        rw [drop_append_ge _ _ _ ?hlen]
        case hlen =>
          simp only [List.length_take, List.length_set]
          omega
        rw [List.drop_drop]
        rw [drop_set_of_lt2 _ _ _ _ (by omega), drop_set_of_lt2 _ _ _ _ (by omega)]
        congr 1
        simp only [List.length_take, List.length_set]
        omega
    · rw [if_neg hmg]
      refine ⟨_, rfl, ?_, ?_, ?_⟩
      · intro hc
        have hlen := congrArg List.length hc
        simp only [List.length_set, List.length_nil] at hlen
        omega
      · simp only [List.length_set]
        omega
      · intro p hp
        exact ⟨p + 1, drop_set_of_lt2 _ _ _ _ (by omega)⟩
  · rw [if_neg hsp]
    have hle : ft.Start.Line ≤ ft.End.Line := by
      rcases hsafe with h | h
      · exact h
      · exact absurd h hsp
    dsimp only
    unfold goSlicesDelete
    rw [if_pos (by simp only [List.length_set]; omega)]
    have htoNat1 : (ft.Start.Line + 1).toNat = ft.Start.Line.toNat + 1 := by omega
    have htoNat2 : (ft.End.Line + 1).toNat = ft.End.Line.toNat + 1 := by omega
    rw [htoNat1, htoNat2]
    refine ⟨_, rfl, ?_, ?_, ?_⟩
    · intro hc
      have hlen := congrArg List.length hc
      simp only [List.length_append, List.length_take, List.length_drop, List.length_set,
        List.length_nil] at hlen
      omega
    · simp only [List.length_append, List.length_take, List.length_drop, List.length_set]
      omega
    · intro p hp
      refine ⟨ft.End.Line.toNat + 1 + (p - ft.Start.Line.toNat), ?_⟩
      rw [drop_append_ge _ _ _ ?hlen2]
      case hlen2 =>
        simp only [List.length_take, List.length_set]
        omega
      rw [List.drop_drop]
      rw [drop_set_of_lt2 _ _ _ _ (by omega)]
      congr 1
      simp only [List.length_take, List.length_set]
      omega

theorem rows_getD_ne_nil (rows : List (List Char)) (h1 : ∀ r ∈ rows, r ≠ ([] : List Char))
    (i : Nat) (hi : i < rows.length) : rows.getD i [] ≠ [] := by
  rw [List.getD_eq_getElem?_getD, List.getElem?_eq_getElem hi]
  exact h1 _ (List.getElem_mem hi)

theorem deleteClamp_spec (rows : List (List Char)) (fromTo : CharInterval)
    (h0 : rows ≠ [])
    (h1 : ∀ r ∈ rows, r ≠ ([] : List Char))
    (hS : ValidPosIn rows fromTo.Start)
    (hEf : fromTo.End.IsLineNumber = false)
    (hE0 : 0 ≤ fromTo.End.Line) (hE1 : 0 ≤ fromTo.End.Column)
    (hEv : ValidPosIn rows fromTo.End ∨ CmpPos (lastPosOf rows) fromTo.End ≤ 0)
    (hSE : CmpPos fromTo.Start fromTo.End ≤ 0)
    (hpanic : ¬(fromTo.Start.Line = (lastPosOf rows).Line ∧
      (lastPosOf rows).Column = 0 ∧ 0 < (lastPosOf rows).Line)) :
    (deleteClamp rows fromTo).Start = fromTo.Start ∧
    0 ≤ (deleteClamp rows fromTo).End.Line ∧
    (deleteClamp rows fromTo).End.Line ≤ (rows.length : Int) - 1 ∧
    ((deleteClamp rows fromTo).Start.Line ≤ (deleteClamp rows fromTo).End.Line ∨
      ((deleteClamp rows fromTo).Start.Line = (deleteClamp rows fromTo).End.Line ∧
       (deleteClamp rows fromTo).Start.Column
         = lastColumnOf rows (deleteClamp rows fromTo).Start.Line)) := by
  obtain ⟨⟨sl, sc, sf⟩, ⟨el, ec, ef⟩⟩ := fromTo
  obtain ⟨hsf, hsl0, hsl1, hsc0, hsc1⟩ := hS
  dsimp only at hsf hsl0 hsl1 hsc0 hsc1 hEf hE0 hE1 hEv hSE hpanic ⊢
  subst hsf
  subst hEf
  have hn : 0 < rows.length := List.length_pos.mpr h0
  have hllen : 0 < (rows.getD (rows.length - 1) []).length :=
    List.length_pos.mpr (rows_getD_ne_nil rows h1 _ (by omega))
  unfold lastPosOf at hEv hpanic
  unfold deleteClamp lastPosOf
  dsimp only at hEv hpanic ⊢
  rw [sanitize_cases]
  rw [if_neg (not_lt.mpr hSE)]
  have hmaxS : (⟨max sl 0, max sc 0, false⟩ : CharPos) = ⟨sl, sc, false⟩ := by
    have h1' : max sl 0 = sl := by omega
    have h2' : max sc 0 = sc := by omega
    rw [h1', h2']
  by_cases hclamp : CmpPos ⟨el, ec, false⟩
      ⟨(rows.length : Int) - 1, ((rows.getD (rows.length - 1) []).length : Int) - 1, false⟩ > 0
  · rw [if_pos hclamp, hmaxS]
    dsimp only
    rw [if_pos (by rw [cmpPos_mk_eq_zero]; exact ⟨rfl, rfl⟩)]
    dsimp only
    unfold prevPosOf
    dsimp only
    refine ⟨rfl, ?_⟩
    split
    · next hcond =>
      dsimp only
      refine ⟨by omega, by omega, ?_⟩
      left
      dsimp only
      omega
    · next hcond =>
      split
      · next hzero =>
        dsimp only
        have hn2 : 2 ≤ rows.length := by omega
        have hslne : sl ≠ (rows.length : Int) - 1 := by
          intro hcon
          exact hpanic ⟨hcon, by omega, by omega⟩
        refine ⟨by omega, by omega, ?_⟩
        left
        dsimp only
        omega
      · next hzero =>
        dsimp only
        refine ⟨by omega, by omega, ?_⟩
        left
        dsimp only
        omega
  · rw [if_neg hclamp, hmaxS]
    dsimp only
    rw [cmpPos_mk_pos] at hclamp
    by_cases heq : CmpPos ⟨el, ec, false⟩
        ⟨(rows.length : Int) - 1, ((rows.getD (rows.length - 1) []).length : Int) - 1, false⟩ = 0
    · rw [if_pos heq]
      rw [cmpPos_mk_eq_zero] at heq
      dsimp only
      unfold prevPosOf
      dsimp only
      refine ⟨rfl, ?_⟩
      split
      · next hcond =>
        dsimp only
        refine ⟨by omega, by omega, ?_⟩
        left
        dsimp only
        omega
      · next hcond =>
        split
        · next hzero =>
          dsimp only
          have hn2 : 2 ≤ rows.length := by omega
          have hslne : sl ≠ (rows.length : Int) - 1 := by
            intro hcon
            exact hpanic ⟨hcon, by omega, by omega⟩
          refine ⟨by omega, by omega, ?_⟩
          left
          dsimp only
          omega
        · next hzero =>
          dsimp only
          refine ⟨by omega, by omega, ?_⟩
          left
          dsimp only
          omega
    · rw [if_neg heq]
      rw [cmpPos_mk_eq_zero] at heq
      dsimp only
      rw [cmpPos_mk_le_zero] at hSE
      have hEvalid : el ≤ (rows.length : Int) - 1 := by
        rcases hEv with hv | hv
        · exact hv.2.2.1
        · rw [cmpPos_mk_le_zero] at hv
          omega
      refine ⟨rfl, by omega, hEvalid, ?_⟩
      left
      omega

/-- Claim C10, counterexample: in the two-row buffer "a\n" / "\n", deleting at
the valid position (1,0) - the sole rune of the last row, which is also the
last buffer position - makes Delete reach `slices.Delete(z.Rows, start.Line+1,
end.Line+1)` with start.Line+1 = 2 greater than end.Line+1 = 1, a Go panic
(modelled as `none`): the clamp moved the end to the previous row while the
start stayed on the last row. So Delete does not, for every interval, leave a
buffer at all, refuting the claim as stated. -/
theorem deleteRows_panic_counterexample :
    ValidPosIn [['a', '\n'], ['\n']] ⟨1, 0, false⟩ ∧
    CmpPos (⟨1, 0, false⟩ : CharPos) ⟨1, 0, false⟩ ≤ 0 ∧
    deleteRows ⟨'\n', Char.ofNat 13, true, 5⟩ ⟨0, 0, false⟩ [['a', '\n'], ['\n']]
      ⟨⟨1, 0, false⟩, ⟨1, 0, false⟩⟩ = none := by
  refine ⟨by decide, by decide, ?_⟩
  rfl

/-- Claim C10, amended: for every buffer of nonempty rows whose last row ends
in the hard delimiter and every deletion interval with valid start, ordered
endpoints, and an end that is valid or at least the last buffer position -
excluding the panic inputs where the start sits on the final row while the
last position is the lone rune of that row on a line after the first - Delete
completes and the resulting buffer is nonempty with its last row still ending
in the hard delimiter rune. -/
theorem deleteRows_keeps_final_delimiter (cfg : WrapCfg) (caret : CharPos)
    (rows : List (List Char)) (fromTo : CharInterval)
    (h0 : rows ≠ [])
    (h1 : ∀ r ∈ rows, r ≠ ([] : List Char))
    (h2 : ∃ body, rows.getLastD [] = body ++ [cfg.HardLF])
    (hS : ValidPosIn rows fromTo.Start)
    (hEf : fromTo.End.IsLineNumber = false)
    (hE0 : 0 ≤ fromTo.End.Line) (hE1 : 0 ≤ fromTo.End.Column)
    (hEv : ValidPosIn rows fromTo.End ∨ CmpPos (lastPosOf rows) fromTo.End ≤ 0)
    (hSE : CmpPos fromTo.Start fromTo.End ≤ 0)
    (hpanic : ¬(fromTo.Start.Line = (lastPosOf rows).Line ∧
      (lastPosOf rows).Column = 0 ∧ 0 < (lastPosOf rows).Line)) :
    ∃ out, deleteRows cfg caret rows fromTo = some out ∧ out ≠ [] ∧
      ∃ body, out.getLastD [] = body ++ [cfg.HardLF] := by
  obtain ⟨hftS, hftE0, hftE1, hsafe⟩ :=
    deleteClamp_spec rows fromTo h0 h1 hS hEf hE0 hE1 hEv hSE hpanic
  obtain ⟨hSf, hS0, hS1, hSc0, hSc1⟩ := hS
  have hsl0 : 0 ≤ (deleteClamp rows fromTo).Start.Line := hftS ▸ hS0
  have hsl1 : (deleteClamp rows fromTo).Start.Line ≤ (rows.length : Int) - 1 := hftS ▸ hS1
  obtain ⟨rows1, hsurg, hrows1ne, hrows1len, hdrop⟩ :=
    deleteSurgery_spec rows (deleteClamp rows fromTo) hsl0 hsl1 hftE0 hftE1 hsafe
  unfold deleteRows
  simp only [hsurg]
  set sl := (deleteClamp rows fromTo).Start.Line.toNat with hslN
  set rows2 := (if (rows1.getD sl []).length = 0 then
      rows1.set sl [if cfg.SoftWrap then cfg.SoftLF else cfg.HardLF] else rows1) with hrows2
  have hlen2 : rows2.length = rows1.length := by
    rw [hrows2]
    split
    · simp
    · rfl
  have hdrop2 : ∀ p : Nat, sl ≤ p → rows2.drop (p + 1) = rows1.drop (p + 1) := by
    intro p hp
    rw [hrows2]
    split
    · exact drop_set_of_lt2 _ _ _ _ (by omega)
    · rfl
  set paraStart := findParagraphStart rows2 cfg.HardLF (deleteClamp rows fromTo).Start.Line
    with hpsN
  set paraEnd := findParagraphEnd rows2 cfg.HardLF sl with hpeN
  have hps_le : paraStart ≤ sl := by
    rw [hpsN]
    exact findParagraphStart_le rows2 cfg.HardLF _
  have hpe_ge : sl ≤ paraEnd := findParagraphEnd_ge rows2 cfg.HardLF sl
  have hsl_le_len2 : sl ≤ rows2.length - 1 := by
    rw [hlen2]
    omega
  have hpe_le : paraEnd ≤ rows2.length - 1 := findParagraphEnd_le rows2 cfg.HardLF sl hsl_le_len2
  have hlen2pos : 0 < rows2.length := by
    rw [hlen2]
    omega
  obtain ⟨hrfne, bodyLast, hrflast⟩ := And.intro
    (wordWrapRows_shape cfg.Columns cfg.SoftWrap cfg.HardLF cfg.SoftLF
      (caret.Line - (paraStart : Int)) caret.Column
      ((rows2.drop paraStart).take (paraEnd + 1 - paraStart))).1
    (wordWrapRows_shape cfg.Columns cfg.SoftWrap cfg.HardLF cfg.SoftLF
      (caret.Line - (paraStart : Int)) caret.Column
      ((rows2.drop paraStart).take (paraEnd + 1 - paraStart))).2
  set reflowed := (wordWrapRows cfg.Columns cfg.SoftWrap cfg.HardLF cfg.SoftLF
    (caret.Line - (paraStart : Int)) caret.Column
    ((rows2.drop paraStart).take (paraEnd + 1 - paraStart))).rows with hrfN
  set rows3 := (if reflowed.length < paraEnd + 1 - paraStart then
      rows2.take (paraStart + reflowed.length) ++ rows2.drop (paraEnd + 1)
    else if paraEnd + 1 - paraStart < reflowed.length then
      rows2.take (paraEnd + 1) ++ List.replicate (reflowed.length - (paraEnd + 1 - paraStart)) [] ++
        rows2.drop (paraEnd + 1)
    else rows2) with hrows3
  have hkey : rows3.drop (paraStart + reflowed.length) = rows2.drop (paraEnd + 1) := by
    rw [hrows3]
    split
    · next hlt =>
      rw [drop_append_ge _ _ _ (by rw [List.length_take]; omega)]
      rw [List.length_take]
      have hz : paraStart + reflowed.length - min (paraStart + reflowed.length) rows2.length
          = 0 := by omega
      rw [hz, List.drop_zero]
    · split
      · next hgt =>
        rw [drop_append_ge _ _ _ (by
          simp only [List.length_append, List.length_take, List.length_replicate]
          omega)]
        simp only [List.length_append, List.length_take, List.length_replicate]
        have hz : paraStart + reflowed.length -
            (min (paraEnd + 1) rows2.length + (reflowed.length - (paraEnd + 1 - paraStart))) = 0 := by
          omega
        rw [hz, List.drop_zero]
      · next hge =>
        have hz : paraStart + reflowed.length = paraEnd + 1 := by omega
        rw [hz]
  refine ⟨_, rfl, ?_, ?_⟩
  · intro hc
    have hlen := congrArg List.length hc
    unfold setSeg at hlen
    simp only [List.length_append, List.length_take, List.length_drop, List.length_nil] at hlen
    have : reflowed.length = 0 := by omega
    exact hrfne (List.length_eq_zero.mp this)
  · unfold setSeg
    rw [hkey]
    by_cases hsuf : rows2.drop (paraEnd + 1) = []
    · rw [hsuf, List.append_nil]
      refine ⟨bodyLast, ?_⟩
      rw [getLastD_append_right _ _ _ hrfne]
      exact hrflast
    · obtain ⟨m, hm⟩ := hdrop paraEnd hpe_ge
      have hsuf2 : rows2.drop (paraEnd + 1) = rows.drop m := by
        rw [hdrop2 paraEnd hpe_ge, hm]
      obtain ⟨body, hbody⟩ := h2
      refine ⟨body, ?_⟩
      rw [getLastD_append_right _ _ _ hsuf]
      rw [hsuf2, getLastD_drop _ _ _ (by rw [← hsuf2]; exact hsuf)]
      exact hbody

/-- Claim C10, witness: deleting the single character at (0,0) of the one-row
buffer "ab\n" completes and leaves a nonempty buffer whose last row ends in
the hard delimiter. -/
theorem deleteRows_keeps_final_delimiter_witness :
    ∃ out, deleteRows ⟨'\n', Char.ofNat 13, true, 5⟩ ⟨0, 0, false⟩ [['a', 'b', '\n']]
      ⟨⟨0, 0, false⟩, ⟨0, 0, false⟩⟩ = some out ∧ out ≠ [] ∧
      ∃ body, out.getLastD [] = body ++ ['\n'] :=
  deleteRows_keeps_final_delimiter ⟨'\n', Char.ofNat 13, true, 5⟩ ⟨0, 0, false⟩
    [['a', 'b', '\n']] ⟨⟨0, 0, false⟩, ⟨0, 0, false⟩⟩
    (by decide) (by decide) ⟨['a', 'b'], rfl⟩ (by decide) (by decide) (by decide) (by decide)
    (Or.inl (by decide)) (by decide) (by decide)

theorem cmpPos_self (a : CharPos) : CmpPos a a = 0 := by
  unfold CmpPos
  split_ifs <;> omega

theorem keyEq_refl (i : CharInterval) : keyEq i i = true := by
  simp [keyEq, cmpPos_self]

theorem cmpPos_clean_eq (a b : CharPos) (ha : a.IsLineNumber = false)
    (hb : b.IsLineNumber = false) (h : CmpPos a b = 0) : a = b := by
  obtain ⟨hl, hc⟩ := (cmpPos_eq_zero_iff a b ha).mp h
  cases a
  cases b
  simp_all

theorem keyEq_clean_eq (i j : CharInterval) (hi : cleanIv i = true)
    (hj : cleanIv j = true) (h : keyEq i j = true) : i = j := by
  simp only [cleanIv, Bool.and_eq_true, Bool.not_eq_true'] at hi hj
  simp only [keyEq, Bool.and_eq_true, beq_iff_eq] at h
  cases i
  cases j
  simp only [CharInterval.mk.injEq]
  exact ⟨cmpPos_clean_eq _ _ hi.1 hj.1 h.1, cmpPos_clean_eq _ _ hi.2 hj.2 h.2⟩

theorem inv_applyOp (c : TagContainerM) (op : TCOp) (hc : Inv c)
    (hv : validOp c op = true) : Inv (applyOp c op) := by
  obtain ⟨h1, h2⟩ := hc
  cases op with
  | add i ts =>
    simp only [validOp, Bool.and_eq_true, List.all_eq_true, Option.isNone_iff_eq_none] at hv
    obtain ⟨hclean, hfresh⟩ := hv
    constructor
    · intro t j ht
      simp only [applyOp] at ht ⊢
      by_cases hmem : t ∈ ts
      · rw [if_pos hmem] at ht
        cases ht
        refine ⟨hclean, ?_⟩
        rw [if_pos (keyEq_refl i)]
        exact List.mem_append_right _ hmem
      · rw [if_neg hmem] at ht
        obtain ⟨hcl, hin⟩ := h1 t j ht
        refine ⟨hcl, ?_⟩
        split
        · exact List.mem_append_left _ hin
        · exact hin
    · intro t j hclj ht
      simp only [applyOp] at ht ⊢
      by_cases hk : keyEq j i = true
      · rw [if_pos hk] at ht
        have hji : j = i := keyEq_clean_eq j i hclj hclean hk
        subst hji
        rcases List.mem_append.mp ht with hin | hin
        · have := h2 t j hclj hin
          rw [if_neg (fun hmem => by rw [hfresh t hmem] at this; exact Option.noConfusion this)]
          exact this
        · rw [if_pos hin]
      · rw [if_neg (by simp [hk])] at ht
        have := h2 t j hclj ht
        rw [if_neg (fun hmem => by rw [hfresh t hmem] at this; exact Option.noConfusion this)]
        exact this
  | del t =>
    simp only [applyOp]
    cases hsome : c.tags t with
    | none => exact ⟨h1, h2⟩
    | some i =>
      obtain ⟨hcli, hti⟩ := h1 t i hsome
      constructor
      · intro t2 j ht2
        simp only at ht2 ⊢
        by_cases heq : t2 = t
        · rw [if_pos heq] at ht2
          exact Option.noConfusion ht2
        · rw [if_neg heq] at ht2
          obtain ⟨hcl, hin⟩ := h1 t2 j ht2
          refine ⟨hcl, ?_⟩
          split
          · exact List.mem_filter.mpr ⟨hin, by simp [heq]⟩
          · exact hin
      · intro t2 j hclj ht2
        simp only at ht2 ⊢
        by_cases hk : keyEq j i = true
        · rw [if_pos hk] at ht2
          obtain ⟨hin, hne⟩ := List.mem_filter.mp ht2
          simp only [ne_eq, decide_eq_true_eq] at hne
          rw [if_neg hne]
          exact h2 t2 j hclj hin
        · rw [if_neg (by simp [hk])] at ht2
          have := h2 t2 j hclj ht2
          have hne : t2 ≠ t := by
            intro hcon
            subst hcon
            rw [hsome] at this
            have hji : j = i := (Option.some.inj this).symm
            subst hji
            exact hk (keyEq_refl j)
          rw [if_neg hne]
          exact this
  | upsert t i =>
    simp only [validOp] at hv
    simp only [applyOp]
    cases hsome : c.tags t with
    | none =>
      constructor
      · intro t2 j ht2
        simp only at ht2 ⊢
        by_cases heq : t2 = t
        · rw [if_pos heq] at ht2
          cases ht2
          subst heq
          refine ⟨hv, ?_⟩
          rw [if_pos (keyEq_refl i)]
          exact List.mem_append_right _ (List.mem_singleton.mpr rfl)
        · rw [if_neg heq] at ht2
          obtain ⟨hcl, hin⟩ := h1 t2 j ht2
          refine ⟨hcl, ?_⟩
          split
          · exact List.mem_append_left _ hin
          · exact hin
      · intro t2 j hclj ht2
        simp only at ht2 ⊢
        by_cases hk : keyEq j i = true
        · rw [if_pos hk] at ht2
          have hji : j = i := keyEq_clean_eq j i hclj hv hk
          subst hji
          rcases List.mem_append.mp ht2 with hin | hin
          · have := h2 t2 j hclj hin
            rw [if_neg (fun heq => by rw [heq, hsome] at this; exact Option.noConfusion this)]
            exact this
          · rw [if_pos (List.mem_singleton.mp hin)]
        · rw [if_neg (by simp [hk])] at ht2
          have := h2 t2 j hclj ht2
          rw [if_neg (fun heq => by rw [heq, hsome] at this; exact Option.noConfusion this)]
          exact this
    | some i2 =>
      obtain ⟨hcli2, hti2⟩ := h1 t i2 hsome
      constructor
      · intro t2 j ht2
        simp only at ht2 ⊢
        by_cases heq : t2 = t
        · rw [if_pos heq] at ht2
          cases ht2
          subst heq
          refine ⟨hv, ?_⟩
          rw [if_pos (keyEq_refl i)]
          exact List.mem_append_right _ (List.mem_singleton.mpr rfl)
        · rw [if_neg heq] at ht2
          obtain ⟨hcl, hin⟩ := h1 t2 j ht2
          have hin1 : t2 ∈ (if keyEq j i2 = true then
              (c.lookup j).filter (fun t3 => t3 ≠ t) else c.lookup j) := by
            split
            · exact List.mem_filter.mpr ⟨hin, by simp [heq]⟩
            · exact hin
          refine ⟨hcl, ?_⟩
          split
          · exact List.mem_append_left _ hin1
          · exact hin1
      · intro t2 j hclj ht2
        simp only at ht2 ⊢
        by_cases hk : keyEq j i = true
        · rw [if_pos hk] at ht2
          have hji : j = i := keyEq_clean_eq j i hclj hv hk
          subst hji
          rcases List.mem_append.mp ht2 with hin | hin
          · by_cases hk2 : keyEq j i2 = true
            · rw [if_pos hk2] at hin
              obtain ⟨hin2, hne⟩ := List.mem_filter.mp hin
              simp only [ne_eq, decide_eq_true_eq] at hne
              rw [if_neg hne]
              exact h2 t2 j hclj hin2
            · rw [if_neg (by simp [hk2])] at hin
              have := h2 t2 j hclj hin
              have hne : t2 ≠ t := by
                intro hcon
                subst hcon
                rw [hsome] at this
                have : i2 = j := Option.some.inj this
                subst this
                exact hk2 (keyEq_refl i2)
              rw [if_neg hne]
              exact this
          · rw [if_pos (List.mem_singleton.mp hin)]
        · rw [if_neg (by simp [hk])] at ht2
          by_cases hk2 : keyEq j i2 = true
          · rw [if_pos hk2] at ht2
            obtain ⟨hin2, hne⟩ := List.mem_filter.mp ht2
            simp only [ne_eq, decide_eq_true_eq] at hne
            rw [if_neg hne]
            exact h2 t2 j hclj hin2
          · rw [if_neg (by simp [hk2])] at ht2
            have := h2 t2 j hclj ht2
            have hne : t2 ≠ t := by
              intro hcon
              subst hcon
              rw [hsome] at this
              have : i2 = j := Option.some.inj this
              subst this
              exact hk2 (keyEq_refl i2)
            rw [if_neg hne]
            exact this

theorem inv_applySeq (ops : List TCOp) (c : TagContainerM) (hc : Inv c)
    (hv : validOps c ops = true) : Inv (applySeq c ops) := by
  induction ops generalizing c with
  | nil => exact hc
  | cons op rest ih =>
    simp only [validOps, Bool.and_eq_true] at hv
    exact ih (applyOp c op) (inv_applyOp c op hc hv.1) hv.2

theorem inv_emptyTC : Inv emptyTC := by
  constructor
  · intro t i ht
    exact Option.noConfusion ht
  · intro t i _ ht
    exact absurd ht (List.not_mem_nil t)

/-- Claim C9, counterexample: starting from the empty container, Add of tag 0
at interval (0,0)-(0,1) followed by a second Add of the same tag 0 at the
different interval (1,0)-(1,1) leaves the map and the tree inconsistent: the
tree still lists tag 0 under the first interval while the map registers it
under the second, because Add never removes the old tree entry of a re-added
tag. This refutes the claim's parenthetical that consistency holds when Add
is called again for an already-registered tag. -/
theorem tagContainer_add_desync_counterexample :
    ¬ Inv (applySeq emptyTC
      [.add ⟨⟨0, 0, false⟩, ⟨0, 1, false⟩⟩ [0],
       .add ⟨⟨1, 0, false⟩, ⟨1, 1, false⟩⟩ [0]]) := by
  intro h
  exact absurd (h.2 0 ⟨⟨0, 0, false⟩, ⟨0, 1, false⟩⟩ (by decide) (by decide)) (by decide)

/-- Claim C9, amended: after every valid sequence of Add, Upsert and Delete
operations starting from the empty container - valid meaning the intervals
are outside the line-number gutter and Add is only applied to tags not
currently registered - the tag map and the interval tree are consistent:
every registered tag appears in the tree entry of exactly its current
interval, and every tag in a tree entry is registered under that interval.
Without the Add proviso the invariant fails, as the counterexample shows. -/
theorem tagContainer_consistency_amended (ops : List TCOp)
    (hv : validOps emptyTC ops = true) : Inv (applySeq emptyTC ops) :=
  inv_applySeq ops emptyTC inv_emptyTC hv

/-- Claim C9, witness: the sequence Add tags 0 and 1 at (0,0)-(0,2), Upsert
tag 0 to (1,0)-(1,3), Delete tag 1 is valid, and the resulting container
satisfies the consistency invariant. -/
theorem tagContainer_consistency_amended_witness :
    validOps emptyTC
      [.add ⟨⟨0, 0, false⟩, ⟨0, 2, false⟩⟩ [0, 1],
       .upsert 0 ⟨⟨1, 0, false⟩, ⟨1, 3, false⟩⟩,
       .del 1] = true ∧
    Inv (applySeq emptyTC
      [.add ⟨⟨0, 0, false⟩, ⟨0, 2, false⟩⟩ [0, 1],
       .upsert 0 ⟨⟨1, 0, false⟩, ⟨1, 3, false⟩⟩,
       .del 1]) :=
  ⟨by decide, tagContainer_consistency_amended
    [.add ⟨⟨0, 0, false⟩, ⟨0, 2, false⟩⟩ [0, 1],
     .upsert 0 ⟨⟨1, 0, false⟩, ⟨1, 3, false⟩⟩,
     .del 1] (by decide)⟩

end Zedit
